import Mathlib

/-!
# Fixed-Set: two-level (FKS) perfect hashing of 32-bit integers

A shallow embedding of `src/FixedSet.h` and the properties proved about it.

Modelling conventions.

* `int32_t` values are `Int`; a theorem that needs the 32-bit range says so with `isInt32`.
* `uint64_t` / `size_t` arithmetic is `Nat` arithmetic reduced `% u64` after every
  operation that can leave the range; the `uint32_t` return value of `GetElementHash`
  is reduced `% u32`.  Counters that only count elements of a vector (`+= 1`, `++i_index`)
  cannot leave the range of `size_t` and are not reduced.
* `std::vector<T>` is `List T`, `std::optional<int32_t>` is `Option Int`.
* The random generator is the sequence of pairs of values that two consecutive calls of
  `dist(*gen)` return (`Gen`).  `MakeRandomLinearHashFunction` is the only consumer of the
  generator and always draws exactly two values, so the pairs are consumed one at a time.
  A `Gen` is a finite initial segment of that sequence: a retry loop that uses it up without
  accepting a function yields `none` (it is still running).
* In the second-level build a remainder by zero or an index past the end of the table, which
  only a wrapped table size can cause, is undefined behaviour in C++ and yields `none` as well.
  Every other index is a remainder by the size of the vector it indexes, taken where that size
  is not zero.
* Where the distinction matters, the build is written a second time with every remainder and
  every vector index checked (`InitializeRun`): a run is done, or starved of draws, or
  undefined.  `InitializeRun_toOption` shows that it returns what `Initialize` returns.
* The queries are written a second time over the operations they perform (`ContainsRun`), each
  of which records itself, so that the operations of a query can be counted.
-/

namespace FixedSetModel

/-- The constant `kBigPrime`. -/
def kBigPrime : Nat := 2000000011

/-- Number of values of a 64-bit unsigned integer (`uint64_t`, `size_t`): `2^64`. -/
def u64 : Nat := 18446744073709551616

/-- Number of values of a 32-bit unsigned integer: `2^32`. -/
def u32 : Nat := 4294967296

/-- Range of `int32_t`. -/
def isInt32 (x : Int) : Prop := -2147483648 ≤ x ∧ x ≤ 2147483647

instance (x : Int) : Decidable (isInt32 x) := by unfold isInt32; infer_instance

/-- Conversion of a signed integer to `uint64_t` (value modulo `2^64`). -/
def toUInt64 (x : Int) : Nat := (x % 18446744073709551616).toNat

/-- Class `LinearHashFunction`: the two coefficients (`bigprime_` is always `kBigPrime`). -/
structure LinearHashFunction where
  first_coeff_ : Nat
  second_coeff_ : Nat
deriving DecidableEq

/-- The 64-bit value that `GetElementHash` computes before it is narrowed to `uint32_t`. -/
def LinearHashFunction.hashWide (h : LinearHashFunction) (element : Int) : Nat :=
  if element < 0 then
    ((h.first_coeff_ * ((toUInt64 element + kBigPrime) % u64 % kBigPrime)) % u64
      + h.second_coeff_) % u64 % kBigPrime
  else
    ((h.first_coeff_ * toUInt64 element) % u64 + h.second_coeff_) % u64 % kBigPrime

/-- Method `LinearHashFunction::GetElementHash`: the 64-bit value narrowed to `uint32_t`. -/
def LinearHashFunction.GetElementHash (h : LinearHashFunction) (element : Int) : Nat :=
  h.hashWide element % u32

/-- State of the generator: the pairs of values the next calls of `dist(*gen)` return. -/
abbrev Gen := List (Nat × Nat)

/-- The function built from two drawn values: each is cast to `uint32_t`. -/
def coefficientsOf (draw : Nat × Nat) : LinearHashFunction :=
  ⟨draw.1 % u32, draw.2 % u32⟩

/-- Function `MakeRandomLinearHashFunction`: draws two values and advances the generator. -/
def MakeRandomLinearHashFunction : Gen → Option (LinearHashFunction × Gen)
  | [] => none
  | draw :: gen => some (coefficientsOf draw, gen)

/-- Method `std::vector::resize`: keeps the first `n` entries, pads with `d`. -/
def resize {α : Type} (v : List α) (n : Nat) (d : α) : List α :=
  v.take n ++ List.replicate (n - v.length) d

/-- Class `PolinomialHashTableSecondLevel`. -/
structure PolinomialHashTableSecondLevel where
  hash_function_ : LinearHashFunction := ⟨0, 0⟩
  hash_table_second_level_ : List (Option Int) := []
deriving DecidableEq

namespace PolinomialHashTableSecondLevel

/-- The constant `kConstForBacketSize`. -/
def kConstForBacketSize : Nat := 4

/-- Method `PolinomialHashTableSecondLevel::Contains`. -/
def Contains (t : PolinomialHashTableSecondLevel) (element : Int) : Bool :=
  if t.hash_table_second_level_.isEmpty then false
  else
    match t.hash_table_second_level_[t.hash_function_.GetElementHash element
        % t.hash_table_second_level_.length]? with
    | some (some stored) => decide (stored = element)
    | _ => false

/-- Method `CollisionAppeared`; `none` when the remainder or the index is undefined. -/
def CollisionAppeared (t : PolinomialHashTableSecondLevel) (element : Int)
    (backet_size : Nat) : Option Bool :=
  if backet_size = 0 then none
  else
    match t.hash_table_second_level_[t.hash_function_.GetElementHash element % backet_size]? with
    | none => none
    | some none => some false
    | some (some stored) => some (decide (stored ≠ element))

/-- The expression `kConstForBacketSize * backet.size() * backet.size()` in `size_t`. -/
def second_level_hashtable_size (backet_size : Nat) : Nat :=
  (kConstForBacketSize * backet_size % u64) * backet_size % u64

/-- The loop of `SplitedIntoBacketsWithCollisions` over the elements still to place. -/
def placeElements (second_level_hashtable_size : Nat) :
    List Int → PolinomialHashTableSecondLevel → Option (Bool × PolinomialHashTableSecondLevel)
  | [], t => some (false, t)
  | element :: rest, t =>
    match CollisionAppeared t element second_level_hashtable_size with
    | none => none
    | some true => some (true, t)
    | some false =>
      let written := t.hash_table_second_level_.set
        (t.hash_function_.GetElementHash element % second_level_hashtable_size) (some element)
      placeElements second_level_hashtable_size rest { t with hash_table_second_level_ := written }

/-- Method `SplitedIntoBacketsWithCollisions`: the answer and the table it leaves. -/
def SplitedIntoBacketsWithCollisions (t : PolinomialHashTableSecondLevel)
    (backet : List Int) : Option (Bool × PolinomialHashTableSecondLevel) :=
  placeElements (second_level_hashtable_size backet.length) backet t

/-- The `do ... while` loop of `MakeSecondLevelHashTable`. -/
def retryLoop (backet : List Int) :
    PolinomialHashTableSecondLevel → Gen → Option (PolinomialHashTableSecondLevel × Gen)
  | _, [] => none
  | t, draw :: gen =>
    match SplitedIntoBacketsWithCollisions { t with hash_function_ := coefficientsOf draw }
        backet with
    | none => none
    | some (true, t1) => retryLoop backet t1 gen
    | some (false, t1) => some (t1, gen)

/-- Method `MakeSecondLevelHashTable`. -/
def MakeSecondLevelHashTable (t : PolinomialHashTableSecondLevel) (gen : Gen)
    (backet : List Int) : Option (PolinomialHashTableSecondLevel × Gen) :=
  if backet.isEmpty then some (t, gen)
  else
    let resized := resize t.hash_table_second_level_ backet.length none
    let second_level_hashtable_size := second_level_hashtable_size backet.length
    let resized_again := resize resized second_level_hashtable_size none
    retryLoop backet { t with hash_table_second_level_ := resized_again } gen

/-- The constructor `PolinomialHashTableSecondLevel(gen, backet)`. -/
def construct (gen : Gen) (backet : List Int) :
    Option (PolinomialHashTableSecondLevel × Gen) :=
  MakeSecondLevelHashTable {} gen backet

end PolinomialHashTableSecondLevel

open PolinomialHashTableSecondLevel (construct)

/-- Class `FixedSet`. -/
structure FixedSet where
  hash_function_first_level_ : LinearHashFunction := ⟨0, 0⟩
  hash_table_ : List PolinomialHashTableSecondLevel := []
deriving DecidableEq

namespace FixedSet

/-- The constant `kConstForBacketSize`. -/
def kConstForBacketSize : Nat := 4

/-- Method `FixedSet::Contains`. -/
def Contains (s : FixedSet) (element : Int) : Bool :=
  if s.hash_table_.isEmpty then false
  else
    match s.hash_table_[s.hash_function_first_level_.GetElementHash element
        % s.hash_table_.length]? with
    | some t => t.Contains element
    | none => false

/-- Method `CountSumSquaredBacketSizes`, a `uint64_t` sum of `size_t` products. -/
def CountSumSquaredBacketSizes (backet_sizes : List Nat) : Nat :=
  backet_sizes.foldl (fun sum size => (sum + size * size % u64) % u64) 0

/-- Method `SplitIntoBackets`. -/
def SplitIntoBackets (s : FixedSet) (elements : List Int) : List Nat :=
  elements.foldl
    (fun backet_sizes element =>
      let i := s.hash_function_first_level_.GetElementHash element % elements.length
      backet_sizes.set i (backet_sizes.getD i 0 + 1))
    (List.replicate elements.length 0)

/-- The first `do ... while` loop of `MakeFirstLevelHashTable`. -/
def sampleFirstLevel (elements : List Int) : FixedSet → Gen → Option (FixedSet × Gen)
  | _, [] => none
  | s, draw :: gen =>
    let s1 := { s with hash_function_first_level_ := coefficientsOf draw }
    if CountSumSquaredBacketSizes (SplitIntoBackets s1 elements)
        ≥ kConstForBacketSize * elements.length % u64 then
      sampleFirstLevel elements s1 gen
    else some (s1, gen)

/-- The loop of `MakeFirstLevelHashTable` that fills `hash_table_first_level`. -/
def fillFirstLevel (s : FixedSet) (elements : List Int) : List (List Int) :=
  elements.foldl
    (fun hash_table_first_level element =>
      let i := s.hash_function_first_level_.GetElementHash element % s.hash_table_.length
      hash_table_first_level.set i (hash_table_first_level.getD i [] ++ [element]))
    (List.replicate elements.length [])

/-- The last loop of `MakeFirstLevelHashTable`: one second-level table per bucket. -/
def buildTables : List (List Int) → Nat → List PolinomialHashTableSecondLevel → Gen →
    Option (List PolinomialHashTableSecondLevel × Gen)
  | [], _, hash_table, gen => some (hash_table, gen)
  | backet :: rest, i_index, hash_table, gen =>
    match construct gen backet with
    | none => none
    | some (t, gen1) => buildTables rest (i_index + 1) (hash_table.set i_index t) gen1

/-- Method `MakeFirstLevelHashTable`; `gen` is what the fresh `std::mt19937` yields. -/
def MakeFirstLevelHashTable (s : FixedSet) (elements : List Int) (gen : Gen) :
    Option (FixedSet × Gen) :=
  if elements.isEmpty then some (s, gen)
  else
    match sampleFirstLevel elements s gen with
    | none => none
    | some (s1, gen1) =>
      match buildTables (fillFirstLevel s1 elements) 0 s1.hash_table_ gen1 with
      | none => none
      | some (hash_table, gen2) => some ({ s1 with hash_table_ := hash_table }, gen2)

/-- Method `FixedSet::Initialize`. -/
def Initialize (s : FixedSet) (elements : List Int) (gen : Gen) : Option (FixedSet × Gen) :=
  MakeFirstLevelHashTable { s with hash_table_ := resize s.hash_table_ elements.length {} }
    elements gen

end FixedSet

end FixedSetModel

namespace FixedSetModel

/-! ## Names used in the statements -/

namespace PolinomialHashTableSecondLevel

/-- The slot an element is sent to by a function, in a table of `size` slots. -/
def slotOf (h : LinearHashFunction) (size : Nat) (element : Int) : Nat :=
  h.GetElementHash element % size

end PolinomialHashTableSecondLevel

namespace FixedSet

/-- Bucket `i` of a list under a first-level function: the elements sent to index `i`,
in input order. -/
def backetOf (h : LinearHashFunction) (elements : List Int) (i : Nat) : List Int :=
  elements.filter (fun element => h.GetElementHash element % elements.length = i)

end FixedSet

end FixedSetModel

namespace FixedSetModel

/-! ## A worked build: the set of the specification's boundary-value property -/

/-- The list `{1, 5, -3, 2147483647, -2147483648}`. -/
def exampleElements : List Int := [1, 5, -3, 2147483647, -2147483648]

/-- A sequence of draws: the first-level candidate `(0, 0)` and the second-level candidate
`(0, 5)` are rejected, the others accepted. -/
def exampleGen : Gen := [(0, 0), (3, 7), (0, 5), (12345, 678), (17, 5), (1000003, 99), (31, 2)]

/-- The structure `Initialize` builds from `exampleElements` with `exampleGen`. -/
def exampleBuilt : FixedSet :=
  { hash_function_first_level_ := ⟨3, 7⟩,
    hash_table_ :=
      [ { hash_function_ := ⟨12345, 678⟩,
          hash_table_second_level_ :=
            [some 2147483647, none, none, none, none, some 1, none, none,
             none, none, none, none, none, none, none, some 1] },
        { hash_function_ := ⟨17, 5⟩,
          hash_table_second_level_ := [none, none, some (-2147483648), none] },
        { hash_function_ := ⟨1000003, 99⟩,
          hash_table_second_level_ := [none, none, some 5, none] },
        { hash_function_ := ⟨0, 0⟩, hash_table_second_level_ := [] },
        { hash_function_ := ⟨31, 2⟩,
          hash_table_second_level_ := [some (-3), none, none, none] } ] }

/-- The two-element bucket `{0, 1}` and the table its build keeps when the candidate `(16, 3)`
is rejected and the candidate `(1, 0)` accepted. -/
def exampleBacketTable : PolinomialHashTableSecondLevel :=
  { hash_function_ := ⟨1, 0⟩,
    hash_table_second_level_ :=
      [some 0, some 1, none, some 0, none, none, none, none,
       none, none, none, none, none, none, none, none] }

end FixedSetModel

namespace FixedSetModel

/-! ## Further worked inputs -/

/-- The list of `2^32 + 1` copies of the key `7`. -/
@[irreducible]
def repeatedKey : List Int := List.replicate 4294967297 7

/-- A list with a repeated element. -/
def exampleRepeated : List Int := [7, 7, -1]

/-- The structure `Initialize` builds from `exampleRepeated` when every draw is `(1, 0)`. -/
def exampleRepeatedBuilt : FixedSet :=
  { hash_function_first_level_ := ⟨1, 0⟩,
    hash_table_ :=
      [ { hash_function_ := ⟨1, 0⟩,
          hash_table_second_level_ := [none, none, some (-1), none] },
        { hash_function_ := ⟨1, 0⟩,
          hash_table_second_level_ :=
            [none, none, none, none, none, none, none, some 7,
             none, none, none, none, none, none, none, none] },
        { hash_function_ := ⟨0, 0⟩, hash_table_second_level_ := [] } ] }

/-- The state in which the first retry loop ends on `exampleElements` with `exampleGen`: the
function `(3, 7)` is accepted, the five tables are not built yet. -/
def exampleAccepted : FixedSet :=
  { hash_function_first_level_ := ⟨3, 7⟩, hash_table_ := List.replicate 5 {} }

/-- The structure `Initialize` builds from the list `{7}` with `exampleGen`, on `exampleBuilt`
as well as on a fresh structure. -/
def exampleRebuilt : FixedSet :=
  { hash_function_first_level_ := ⟨0, 0⟩,
    hash_table_ :=
      [ { hash_function_ := ⟨3, 7⟩,
          hash_table_second_level_ := [some 7, none, none, none] } ] }

end FixedSetModel

namespace FixedSetModel

/-! ## Queries as runs of operations

The two `Contains` methods again, written over the operations they perform: a call of
`GetElementHash`, a remainder, a read of a vector entry, a dereference of an optional.  Each
operation reports itself and is undefined where C++ leaves it undefined, so the run of a query
yields the operations performed and whether all of them were defined. -/

/-- An operation on the structure that a query performs. -/
inductive Operation where
  | hashCall (h : LinearHashFunction) (element : Int)
  | tableRead (index : Nat)
  | slotRead (index : Nat)
deriving DecidableEq

/-- Whether an operation is a call of `GetElementHash`. -/
def Operation.isHashCall : Operation → Bool
  | Operation.hashCall _ _ => true
  | _ => false

/-- Whether an operation is a read of a vector entry. -/
def Operation.isRead : Operation → Bool
  | Operation.hashCall _ _ => false
  | _ => true

/-- The run of a query: `none` when it performs an undefined operation, otherwise its value and
the operations performed, in order. -/
def QueryRun (α : Type) : Type := Option (α × List Operation)

namespace QueryRun

/-- A value computed without any operation on the structure. -/
def ret {α : Type} (a : α) : QueryRun α := some (a, [])

/-- Sequencing: the operations of the second part follow those of the first. -/
def andThen {α β : Type} (x : QueryRun α) (f : α → QueryRun β) : QueryRun β :=
  match x with
  | none => none
  | some (a, ops) =>
    match f a with
    | none => none
    | some (b, more) => some (b, ops ++ more)

instance : Monad QueryRun where
  pure := ret
  bind := andThen

/-- A call of `GetElementHash`. -/
def callHash (h : LinearHashFunction) (element : Int) : QueryRun Nat :=
  some (h.GetElementHash element, [Operation.hashCall h element])

/-- The remainder `a % m`: undefined for `m = 0`. -/
def remainder (a m : Nat) : QueryRun Nat :=
  if m = 0 then none else some (a % m, [])

/-- The read `hash_table_[index]`: undefined past the end. -/
def readTable (v : List PolinomialHashTableSecondLevel) (index : Nat) :
    QueryRun PolinomialHashTableSecondLevel :=
  match v[index]? with
  | none => none
  | some t => some (t, [Operation.tableRead index])

/-- The read `hash_table_second_level_[index]`: undefined past the end. -/
def readSlot (v : List (Option Int)) (index : Nat) : QueryRun (Option Int) :=
  match v[index]? with
  | none => none
  | some slot => some (slot, [Operation.slotRead index])

/-- The dereference `*slot` of an optional: undefined when it is empty. -/
def deref (slot : Option Int) : QueryRun Int :=
  match slot with
  | none => none
  | some stored => some (stored, [])

end QueryRun

namespace PolinomialHashTableSecondLevel

/-- Method `PolinomialHashTableSecondLevel::Contains` as a run of operations. -/
def ContainsRun (t : PolinomialHashTableSecondLevel) (element : Int) : QueryRun Bool :=
  if t.hash_table_second_level_.isEmpty then pure false
  else do
    let hash ← QueryRun.callHash t.hash_function_ element
    let element_hash ← QueryRun.remainder hash t.hash_table_second_level_.length
    let slot ← QueryRun.readSlot t.hash_table_second_level_ element_hash
    if slot.isNone then pure false
    else do
      let again ← QueryRun.readSlot t.hash_table_second_level_ element_hash
      let stored ← QueryRun.deref again
      pure (decide (stored = element))

end PolinomialHashTableSecondLevel

namespace FixedSet

/-- Method `FixedSet::Contains` as a run of operations. -/
def ContainsRun (s : FixedSet) (element : Int) : QueryRun Bool :=
  if s.hash_table_.isEmpty then pure false
  else do
    let hash ← QueryRun.callHash s.hash_function_first_level_ element
    let index ← QueryRun.remainder hash s.hash_table_.length
    let t ← QueryRun.readTable s.hash_table_ index
    t.ContainsRun element

end FixedSet

/-! ## Builds as runs with checked operations

`Initialize` again, with every remainder and every vector index checked: a run ends with a
result, or with the given draws used up while a retry loop is still running, or in an undefined
operation. -/

/-- How the run of a build on a given sequence of draws ends. -/
inductive Outcome (α : Type) where
  | done (result : α)
  | starved
  | undefined

/-- The result of a run that returned. -/
def Outcome.toOption {α : Type} : Outcome α → Option α
  | Outcome.done result => some result
  | Outcome.starved => none
  | Outcome.undefined => none

/-- The remainder `a % m`: undefined (`none`) for `m = 0`. -/
def checkedMod (a m : Nat) : Option Nat :=
  if m = 0 then none else some (a % m)

/-- The assignment `v[index] = a`: undefined (`none`) past the end. -/
def checkedSet {α : Type} (v : List α) (index : Nat) (a : α) : Option (List α) :=
  if index < v.length then some (v.set index a) else none

namespace PolinomialHashTableSecondLevel

/-- The loop of `SplitedIntoBacketsWithCollisions` with the slot write checked as well
(`CollisionAppeared` already checks its remainder and its read). -/
def placeElementsChecked (second_level_hashtable_size : Nat) :
    List Int → PolinomialHashTableSecondLevel → Option (Bool × PolinomialHashTableSecondLevel)
  | [], t => some (false, t)
  | element :: rest, t =>
    match CollisionAppeared t element second_level_hashtable_size with
    | none => none
    | some true => some (true, t)
    | some false =>
      match checkedMod (t.hash_function_.GetElementHash element) second_level_hashtable_size with
      | none => none
      | some index =>
        match checkedSet t.hash_table_second_level_ index (some element) with
        | none => none
        | some written =>
          placeElementsChecked second_level_hashtable_size rest
            { t with hash_table_second_level_ := written }

/-- The `do ... while` loop of `MakeSecondLevelHashTable`, as a run. -/
def retryLoopRun (backet : List Int) :
    PolinomialHashTableSecondLevel → Gen → Outcome (PolinomialHashTableSecondLevel × Gen)
  | _, [] => Outcome.starved
  | t, draw :: gen =>
    match placeElementsChecked (second_level_hashtable_size backet.length) backet
        { t with hash_function_ := coefficientsOf draw } with
    | none => Outcome.undefined
    | some (true, t1) => retryLoopRun backet t1 gen
    | some (false, t1) => Outcome.done (t1, gen)

/-- Method `MakeSecondLevelHashTable`, as a run. -/
def MakeSecondLevelHashTableRun (t : PolinomialHashTableSecondLevel) (gen : Gen)
    (backet : List Int) : Outcome (PolinomialHashTableSecondLevel × Gen) :=
  if backet.isEmpty then Outcome.done (t, gen)
  else
    let resized := resize t.hash_table_second_level_ backet.length none
    let second_level_hashtable_size := second_level_hashtable_size backet.length
    let resized_again := resize resized second_level_hashtable_size none
    retryLoopRun backet { t with hash_table_second_level_ := resized_again } gen

/-- The constructor `PolinomialHashTableSecondLevel(gen, backet)`, as a run. -/
def constructRun (gen : Gen) (backet : List Int) :
    Outcome (PolinomialHashTableSecondLevel × Gen) :=
  MakeSecondLevelHashTableRun {} gen backet

end PolinomialHashTableSecondLevel

namespace FixedSet

open PolinomialHashTableSecondLevel (constructRun)

/-- The loop of `SplitIntoBackets` with the remainder and the index checked. -/
def countLoop (s : FixedSet) (set_size : Nat) : List Int → List Nat → Option (List Nat)
  | [], backet_sizes => some backet_sizes
  | element :: rest, backet_sizes =>
    match checkedMod (s.hash_function_first_level_.GetElementHash element) set_size with
    | none => none
    | some index =>
      match backet_sizes[index]? with
      | none => none
      | some size =>
        match checkedSet backet_sizes index (size + 1) with
        | none => none
        | some counted => countLoop s set_size rest counted

/-- Method `SplitIntoBackets` with the remainder and the index checked. -/
def SplitIntoBacketsChecked (s : FixedSet) (elements : List Int) : Option (List Nat) :=
  countLoop s elements.length elements (List.replicate elements.length 0)

/-- The first `do ... while` loop of `MakeFirstLevelHashTable`, as a run. -/
def sampleFirstLevelRun (elements : List Int) : FixedSet → Gen → Outcome (FixedSet × Gen)
  | _, [] => Outcome.starved
  | s, draw :: gen =>
    let s1 := { s with hash_function_first_level_ := coefficientsOf draw }
    match SplitIntoBacketsChecked s1 elements with
    | none => Outcome.undefined
    | some backet_sizes =>
      if CountSumSquaredBacketSizes backet_sizes
          ≥ kConstForBacketSize * elements.length % u64 then
        sampleFirstLevelRun elements s1 gen
      else Outcome.done (s1, gen)

/-- The loop that fills `hash_table_first_level`, with the remainder and the index checked. -/
def pushLoop (s : FixedSet) : List Int → List (List Int) → Option (List (List Int))
  | [], hash_table_first_level => some hash_table_first_level
  | element :: rest, hash_table_first_level =>
    match checkedMod (s.hash_function_first_level_.GetElementHash element)
        s.hash_table_.length with
    | none => none
    | some index =>
      match hash_table_first_level[index]? with
      | none => none
      | some backet =>
        match checkedSet hash_table_first_level index (backet ++ [element]) with
        | none => none
        | some pushed => pushLoop s rest pushed

/-- The filling of `hash_table_first_level`, checked. -/
def fillFirstLevelChecked (s : FixedSet) (elements : List Int) : Option (List (List Int)) :=
  pushLoop s elements (List.replicate elements.length [])

/-- The last loop of `MakeFirstLevelHashTable`, as a run with the assignment
`hash_table_[i_index] = ...` checked. -/
def buildTablesRun : List (List Int) → Nat → List PolinomialHashTableSecondLevel → Gen →
    Outcome (List PolinomialHashTableSecondLevel × Gen)
  | [], _, hash_table, gen => Outcome.done (hash_table, gen)
  | backet :: rest, i_index, hash_table, gen =>
    match constructRun gen backet with
    | Outcome.starved => Outcome.starved
    | Outcome.undefined => Outcome.undefined
    | Outcome.done (t, gen1) =>
      match checkedSet hash_table i_index t with
      | none => Outcome.undefined
      | some assigned => buildTablesRun rest (i_index + 1) assigned gen1

/-- Method `MakeFirstLevelHashTable`, as a run. -/
def MakeFirstLevelHashTableRun (s : FixedSet) (elements : List Int) (gen : Gen) :
    Outcome (FixedSet × Gen) :=
  if elements.isEmpty then Outcome.done (s, gen)
  else
    match sampleFirstLevelRun elements s gen with
    | Outcome.starved => Outcome.starved
    | Outcome.undefined => Outcome.undefined
    | Outcome.done (s1, gen1) =>
      match fillFirstLevelChecked s1 elements with
      | none => Outcome.undefined
      | some hash_table_first_level =>
        match buildTablesRun hash_table_first_level 0 s1.hash_table_ gen1 with
        | Outcome.starved => Outcome.starved
        | Outcome.undefined => Outcome.undefined
        | Outcome.done (hash_table, gen2) =>
          Outcome.done ({ s1 with hash_table_ := hash_table }, gen2)

/-- Method `FixedSet::Initialize`, as a run. -/
def InitializeRun (s : FixedSet) (elements : List Int) (gen : Gen) :
    Outcome (FixedSet × Gen) :=
  MakeFirstLevelHashTableRun
    { s with hash_table_ := resize s.hash_table_ elements.length {} } elements gen

end FixedSet

/-- The list of `2^32` copies of the key `7`. -/
@[irreducible]
def repeatedKeyWrap : List Int := List.replicate 4294967296 7

end FixedSetModel

namespace FixedSetModel

open PolinomialHashTableSecondLevel

/-! ## The hash function -/

theorem kBigPrime_pos : 0 < kBigPrime := by decide

theorem kBigPrime_lt_u32 : kBigPrime < u32 := by decide

theorem hashWide_lt (h : LinearHashFunction) (element : Int) :
    h.hashWide element < kBigPrime := by
  unfold LinearHashFunction.hashWide
  split <;> exact Nat.mod_lt _ kBigPrime_pos

theorem GetElementHash_eq_hashWide (h : LinearHashFunction) (element : Int) :
    h.GetElementHash element = h.hashWide element := by
  unfold LinearHashFunction.GetElementHash
  exact Nat.mod_eq_of_lt (lt_trans (hashWide_lt h element) kBigPrime_lt_u32)

theorem GetElementHash_lt (h : LinearHashFunction) (element : Int) :
    h.GetElementHash element < kBigPrime := by
  rw [GetElementHash_eq_hashWide]
  exact hashWide_lt h element

theorem coefficientsOf_first_lt (draw : Nat × Nat) : (coefficientsOf draw).first_coeff_ < u32 :=
  Nat.mod_lt _ (by decide)

theorem coefficientsOf_second_lt (draw : Nat × Nat) : (coefficientsOf draw).second_coeff_ < u32 :=
  Nat.mod_lt _ (by decide)

/-- Conversion to `uint64_t` of a non-negative value below `2^64` is the value itself. -/
theorem toUInt64_of_nonneg (x : Int) (h0 : 0 ≤ x) (h1 : x < 18446744073709551616) :
    toUInt64 x = x.toNat := by
  unfold toUInt64
  rw [Int.emod_eq_of_lt h0 h1]

/-- Conversion to `uint64_t` of a negative value above `-2^64` adds `2^64`. -/
theorem toUInt64_of_neg (x : Int) (h0 : x < 0) (h1 : -18446744073709551616 ≤ x) :
    toUInt64 x = (x + 18446744073709551616).toNat := by
  unfold toUInt64
  congr 1
  rw [← Int.add_mul_emod_self (a := x) (b := 1) (c := 18446744073709551616)]
  rw [Int.emod_eq_of_lt] <;> omega

/-- On a non-negative 32-bit key and coefficients below `2^32` nothing wraps. -/
theorem GetElementHash_of_nonneg (h : LinearHashFunction) (x : Int)
    (ha : h.first_coeff_ < u32) (hb : h.second_coeff_ < u32) (h0 : 0 ≤ x)
    (h1 : x ≤ 2147483647) :
    h.GetElementHash x = (h.first_coeff_ * x.toNat + h.second_coeff_) % kBigPrime := by
  rw [GetElementHash_eq_hashWide]
  unfold LinearHashFunction.hashWide
  rw [if_neg (by omega), toUInt64_of_nonneg x h0 (by omega)]
  have hx : x.toNat < 2147483648 := by omega
  simp only [u32, u64, kBigPrime] at *
  have hprod : h.first_coeff_ * x.toNat < 4294967296 * 2147483648 :=
    calc h.first_coeff_ * x.toNat ≤ 4294967296 * x.toNat := Nat.mul_le_mul_right _ (by omega)
      _ < 4294967296 * 2147483648 := Nat.mul_lt_mul_of_pos_left hx (by omega)
  generalize h.first_coeff_ * x.toNat = prod at hprod ⊢
  omega

/-- On a negative key not below `-kBigPrime` the key is shifted by `kBigPrime`. -/
theorem GetElementHash_of_neg (h : LinearHashFunction) (x : Int)
    (ha : h.first_coeff_ < u32) (hb : h.second_coeff_ < u32) (h0 : x < 0)
    (h1 : -2000000011 ≤ x) :
    h.GetElementHash x
      = (h.first_coeff_ * (x + 2000000011).toNat + h.second_coeff_) % kBigPrime := by
  rw [GetElementHash_eq_hashWide]
  unfold LinearHashFunction.hashWide
  rw [if_pos h0, toUInt64_of_neg x h0 (by omega)]
  have hy : (x + 2000000011).toNat < 2000000011 := by omega
  simp only [u32, u64, kBigPrime] at *
  have hshift : ((x + 18446744073709551616).toNat + 2000000011) % 18446744073709551616
      % 2000000011 = (x + 2000000011).toNat := by omega
  rw [hshift]
  have hprod : h.first_coeff_ * (x + 2000000011).toNat < 4294967296 * 2000000011 :=
    calc h.first_coeff_ * (x + 2000000011).toNat
        ≤ 4294967296 * (x + 2000000011).toNat := Nat.mul_le_mul_right _ (by omega)
      _ < 4294967296 * 2000000011 := Nat.mul_lt_mul_of_pos_left hy (by omega)
  generalize h.first_coeff_ * (x + 2000000011).toNat = prod at hprod ⊢
  omega

/-- The keys `0` and `kBigPrime` receive the same hash under every sampled function. -/
theorem GetElementHash_zero_eq_prime (h : LinearHashFunction)
    (ha : h.first_coeff_ < u32) (hb : h.second_coeff_ < u32) :
    h.GetElementHash 0 = h.GetElementHash 2000000011 := by
  rw [GetElementHash_of_nonneg h 0 ha hb (by norm_num) (by norm_num),
    GetElementHash_of_nonneg h 2000000011 ha hb (by norm_num) (by norm_num)]
  have e1 : (0 : Int).toNat = 0 := rfl
  have e2 : (2000000011 : Int).toNat = kBigPrime := rfl
  rw [e1, e2, Nat.mul_zero, Nat.zero_add, Nat.add_comm, Nat.add_mul_mod_self_right]

end FixedSetModel

namespace FixedSetModel

namespace PolinomialHashTableSecondLevel

/-! ## The second-level table -/

theorem length_resize {α : Type} (v : List α) (n : Nat) (d : α) : (resize v n d).length = n := by
  unfold resize
  simp only [List.length_append, List.length_take, List.length_replicate]
  omega

theorem resize_nil {α : Type} (n : Nat) (d : α) : resize [] n d = List.replicate n d := by
  simp [resize]

theorem resize_replicate {α : Type} (m n : Nat) (d : α) :
    resize (List.replicate m d) n d = List.replicate n d := by
  unfold resize
  rw [List.take_replicate, List.length_replicate, List.append_replicate_replicate]
  congr 1
  omega

theorem collisionAppeared_false_iff (t : PolinomialHashTableSecondLevel) (element : Int)
    (size : Nat) :
    CollisionAppeared t element size = some false ↔
      size ≠ 0 ∧ (t.hash_table_second_level_[slotOf t.hash_function_ size element]? = some none
        ∨ t.hash_table_second_level_[slotOf t.hash_function_ size element]?
            = some (some element)) := by
  unfold CollisionAppeared slotOf
  by_cases hs : size = 0
  · simp [hs]
  · simp only [hs, if_false, ne_eq, not_false_eq_true, true_and]
    cases hg : t.hash_table_second_level_[t.hash_function_.GetElementHash element % size]? with
    | none => simp
    | some slot =>
      cases slot with
      | none => simp
      | some stored => simp

theorem collisionAppeared_true_iff (t : PolinomialHashTableSecondLevel) (element : Int)
    (size : Nat) :
    CollisionAppeared t element size = some true ↔
      size ≠ 0 ∧ ∃ stored, stored ≠ element ∧
        t.hash_table_second_level_[slotOf t.hash_function_ size element]?
          = some (some stored) := by
  unfold CollisionAppeared slotOf
  by_cases hs : size = 0
  · simp [hs]
  · simp only [hs, if_false, ne_eq, not_false_eq_true, true_and]
    cases hg : t.hash_table_second_level_[t.hash_function_.GetElementHash element % size]? with
    | none => simp
    | some slot =>
      cases slot with
      | none => simp
      | some stored => simp

/-- What one pass of `SplitedIntoBacketsWithCollisions` does to the table, whatever it answers:
the function and the number of slots stay, an occupied slot keeps its value, a newly occupied
slot holds an element of the bucket; and when the answer is `false` every element of the bucket
sits in its own slot. -/
theorem placeElements_spec (size : Nat) (backet : List Int) :
    ∀ (t t1 : PolinomialHashTableSecondLevel) (answer : Bool),
      placeElements size backet t = some (answer, t1) →
      t1.hash_function_ = t.hash_function_ ∧
      t1.hash_table_second_level_.length = t.hash_table_second_level_.length ∧
      (∀ (i : Nat) (v : Int), t.hash_table_second_level_[i]? = some (some v) →
        t1.hash_table_second_level_[i]? = some (some v)) ∧
      (∀ (i : Nat) (v : Int), t1.hash_table_second_level_[i]? = some (some v) →
        t.hash_table_second_level_[i]? = some (some v) ∨ v ∈ backet) ∧
      (answer = false → ∀ x ∈ backet,
        t1.hash_table_second_level_[slotOf t.hash_function_ size x]? = some (some x)) := by
  induction backet with
  | nil =>
    intro t t1 answer h
    simp only [placeElements, Option.some.injEq, Prod.mk.injEq] at h
    obtain ⟨_, rfl⟩ := h
    simp
  | cons element rest ih =>
    intro t t1 answer h
    unfold placeElements at h
    cases hc : CollisionAppeared t element size with
    | none => simp [hc] at h
    | some c =>
      cases c with
      | true =>
        simp only [hc, Option.some.injEq, Prod.mk.injEq] at h
        obtain ⟨rfl, rfl⟩ := h
        exact ⟨rfl, rfl, fun _ _ hv => hv, fun _ _ hv => Or.inl hv, fun hans => by simp at hans⟩
      | false =>
        simp only [hc] at h
        obtain ⟨hs, hslot⟩ := (collisionAppeared_false_iff t element size).1 hc
        obtain ⟨ihf, ihl, ihkeep, ihnew, ihplaced⟩ := ih _ _ _ h
        simp only at ihf ihl ihkeep ihnew ihplaced
        have hlt : slotOf t.hash_function_ size element < t.hash_table_second_level_.length := by
          rcases hslot with h1 | h1 <;>
            exact (List.getElem?_eq_some_iff.1 h1).1
        have hwritten : (t.hash_table_second_level_.set
            (t.hash_function_.GetElementHash element % size) (some element))[
              slotOf t.hash_function_ size element]? = some (some element) := by
          unfold slotOf at hlt ⊢
          rw [List.getElem?_set_self hlt]
        refine ⟨ihf, ?_, ?_, ?_, ?_⟩
        · rw [ihl, List.length_set]
        · intro i v hv
          apply ihkeep
          by_cases hi : slotOf t.hash_function_ size element = i
          · subst hi
            rw [hv] at hslot
            rcases hslot with h1 | h1
            · simp at h1
            · simp only [Option.some.injEq] at h1
              subst h1
              exact hwritten
          · unfold slotOf at hi
            rw [List.getElem?_set_ne hi]
            exact hv
        · intro i v hv
          rcases ihnew i v hv with h1 | h1
          · by_cases hi : slotOf t.hash_function_ size element = i
            · subst hi
              rw [hwritten] at h1
              simp only [Option.some.injEq] at h1
              subst h1
              exact Or.inr (List.mem_cons_self _ _)
            · unfold slotOf at hi
              rw [List.getElem?_set_ne hi] at h1
              exact Or.inl h1
          · exact Or.inr (List.mem_cons_of_mem _ h1)
        · intro hans x hx
          rcases List.mem_cons.1 hx with rfl | hx
          · exact ihkeep _ _ hwritten
          · exact ihplaced hans x hx

/-- A pass over a non-empty bucket that answers at all ran with a non-zero modulus. -/
theorem placeElements_size_ne_zero (size : Nat) (backet : List Int)
    (t : PolinomialHashTableSecondLevel) (r : Bool × PolinomialHashTableSecondLevel)
    (hne : backet ≠ []) (h : placeElements size backet t = some r) : size ≠ 0 := by
  cases backet with
  | nil => exact absurd rfl hne
  | cons element rest =>
    intro hs
    unfold placeElements CollisionAppeared at h
    simp [hs] at h

/-- What the retry loop of `MakeSecondLevelHashTable` leaves when it ends. -/
theorem retryLoop_spec (backet : List Int) (hne : backet ≠ []) :
    ∀ (gen gen1 : Gen) (t t1 : PolinomialHashTableSecondLevel),
      retryLoop backet t gen = some (t1, gen1) →
      second_level_hashtable_size backet.length ≠ 0 ∧
      (∃ draw, t1.hash_function_ = coefficientsOf draw) ∧
      t1.hash_table_second_level_.length = t.hash_table_second_level_.length ∧
      (∀ (i : Nat) (v : Int), t1.hash_table_second_level_[i]? = some (some v) →
        t.hash_table_second_level_[i]? = some (some v) ∨ v ∈ backet) ∧
      (∀ x ∈ backet, t1.hash_table_second_level_[
        slotOf t1.hash_function_ (second_level_hashtable_size backet.length) x]?
          = some (some x)) := by
  intro gen
  induction gen with
  | nil =>
    intro gen1 t t1 h
    simp [retryLoop] at h
  | cons draw gen ih =>
    intro gen1 t t1 h
    unfold retryLoop SplitedIntoBacketsWithCollisions at h
    cases hp : placeElements (second_level_hashtable_size backet.length) backet
        { t with hash_function_ := coefficientsOf draw } with
    | none => simp [hp] at h
    | some r =>
      obtain ⟨answer, t2⟩ := r
      have hsize := placeElements_size_ne_zero _ _ _ _ hne hp
      obtain ⟨hf, hl, _, hnew, hplaced⟩ := placeElements_spec _ _ _ _ _ hp
      simp only at hf hl hnew hplaced
      cases answer with
      | true =>
        simp only [hp] at h
        obtain ⟨_, hd, ihl, ihnew, ihplaced⟩ := ih _ _ _ h
        refine ⟨hsize, hd, by rw [ihl, hl], ?_, ihplaced⟩
        intro i v hv
        rcases ihnew i v hv with h1 | h1
        · exact hnew i v h1
        · exact Or.inr h1
      | false =>
        simp only [hp, Option.some.injEq, Prod.mk.injEq] at h
        obtain ⟨rfl, rfl⟩ := h
        refine ⟨hsize, ⟨draw, hf⟩, hl, hnew, ?_⟩
        rw [hf]
        exact hplaced rfl

/-- What `MakeSecondLevelHashTable` leaves on a non-empty bucket. -/
theorem MakeSecondLevelHashTable_spec (t t1 : PolinomialHashTableSecondLevel) (gen gen1 : Gen)
    (backet : List Int) (hne : backet ≠ [])
    (h : MakeSecondLevelHashTable t gen backet = some (t1, gen1)) :
    second_level_hashtable_size backet.length ≠ 0 ∧
    (∃ draw, t1.hash_function_ = coefficientsOf draw) ∧
    t1.hash_table_second_level_.length = second_level_hashtable_size backet.length ∧
    (∀ x ∈ backet, t1.hash_table_second_level_[
      slotOf t1.hash_function_ (second_level_hashtable_size backet.length) x]?
        = some (some x)) := by
  unfold MakeSecondLevelHashTable at h
  have he : backet.isEmpty = false := by
    cases backet with
    | nil => exact absurd rfl hne
    | cons a l => rfl
  simp only [he, Bool.false_eq_true, if_false] at h
  obtain ⟨hsize, hd, hl, _, hplaced⟩ := retryLoop_spec backet hne _ _ _ _ h
  simp only [length_resize] at hl
  exact ⟨hsize, hd, hl, hplaced⟩

/-- A table built by the constructor answers `Contains` exactly on the bucket. -/
theorem construct_contains (gen gen1 : Gen) (backet : List Int)
    (t : PolinomialHashTableSecondLevel) (h : construct gen backet = some (t, gen1))
    (x : Int) : t.Contains x = true ↔ x ∈ backet := by
  unfold construct MakeSecondLevelHashTable at h
  by_cases hb : backet = []
  · subst hb
    simp only [List.isEmpty_nil, if_true, Option.some.injEq, Prod.mk.injEq] at h
    obtain ⟨rfl, _⟩ := h
    simp [Contains]
  · have he : backet.isEmpty = false := by
      cases backet with
      | nil => exact absurd rfl hb
      | cons a l => rfl
    simp only [he, Bool.false_eq_true, if_false] at h
    obtain ⟨hsize, _, hl, hnew, hplaced⟩ := retryLoop_spec backet hb _ _ _ _ h
    simp only [length_resize] at hl
    rw [resize_nil, resize_replicate] at hnew
    have hempty : t.hash_table_second_level_.isEmpty = false := by
      cases hq : t.hash_table_second_level_ with
      | nil => rw [hq] at hl; exact absurd hl.symm hsize
      | cons _ _ => rfl
    unfold Contains
    rw [hempty, hl]
    simp only [Bool.false_eq_true, if_false]
    constructor
    · intro hc
      cases hg : t.hash_table_second_level_[t.hash_function_.GetElementHash x
          % second_level_hashtable_size backet.length]? with
      | none => rw [hg] at hc; exact absurd hc (by simp)
      | some slot =>
        cases slot with
        | none => rw [hg] at hc; exact absurd hc (by simp)
        | some stored =>
          rw [hg] at hc
          simp only [decide_eq_true_eq] at hc
          subst hc
          rcases hnew _ _ hg with h1 | h1
          · rw [List.getElem?_replicate] at h1
            split at h1 <;> simp at h1
          · exact h1
    · intro hx
      have hp := hplaced x hx
      unfold slotOf at hp
      rw [hp]
      simp

end PolinomialHashTableSecondLevel

end FixedSetModel

namespace FixedSetModel

namespace FixedSet

open PolinomialHashTableSecondLevel (construct construct_contains length_resize)

/-! ## The first level -/

theorem foldl_push_length (f : Int → Nat) (elements : List Int) :
    ∀ acc : List (List Int),
      (elements.foldl (fun tbl element =>
        tbl.set (f element) (tbl.getD (f element) [] ++ [element])) acc).length
        = acc.length := by
  induction elements with
  | nil => intro acc; rfl
  | cons e rest ih =>
    intro acc
    rw [List.foldl_cons, ih, List.length_set]

theorem foldl_push_getElem? (f : Int → Nat) (elements : List Int) (i : Nat) :
    ∀ (acc : List (List Int)) (b : List Int), acc[i]? = some b →
      (elements.foldl (fun tbl element =>
        tbl.set (f element) (tbl.getD (f element) [] ++ [element])) acc)[i]?
        = some (b ++ elements.filter (fun element => f element = i)) := by
  induction elements with
  | nil => intro acc b h; simpa using h
  | cons e rest ih =>
    intro acc b h
    rw [List.foldl_cons]
    have hi : i < acc.length := (List.getElem?_eq_some_iff.1 h).1
    by_cases he : f e = i
    · subst he
      rw [ih _ (b ++ [e])]
      · simp [List.filter_cons]
      · rw [List.getElem?_set_self hi, List.getD_eq_getElem?_getD, h]
        rfl
    · rw [ih _ b]
      · simp [List.filter_cons, he]
      · rw [List.getElem?_set_ne he]
        exact h

theorem foldl_count_length (f : Int → Nat) (elements : List Int) :
    ∀ acc : List Nat,
      (elements.foldl (fun sizes element =>
        sizes.set (f element) (sizes.getD (f element) 0 + 1)) acc).length = acc.length := by
  induction elements with
  | nil => intro acc; rfl
  | cons e rest ih =>
    intro acc
    rw [List.foldl_cons, ih, List.length_set]

theorem foldl_count_getElem? (f : Int → Nat) (elements : List Int) (i : Nat) :
    ∀ (acc : List Nat) (c : Nat), acc[i]? = some c →
      (elements.foldl (fun sizes element =>
        sizes.set (f element) (sizes.getD (f element) 0 + 1)) acc)[i]?
        = some (c + (elements.filter (fun element => f element = i)).length) := by
  induction elements with
  | nil => intro acc c h; simpa using h
  | cons e rest ih =>
    intro acc c h
    rw [List.foldl_cons]
    have hi : i < acc.length := (List.getElem?_eq_some_iff.1 h).1
    by_cases he : f e = i
    · subst he
      rw [ih _ (c + 1)]
      · simp [List.filter_cons]
        omega
      · rw [List.getElem?_set_self hi, List.getD_eq_getElem?_getD, h]
        rfl
    · rw [ih _ c]
      · simp [List.filter_cons, he]
      · rw [List.getElem?_set_ne he]
        exact h

theorem length_fillFirstLevel (s : FixedSet) (elements : List Int) :
    (fillFirstLevel s elements).length = elements.length := by
  unfold fillFirstLevel
  rw [foldl_push_length (fun element =>
    s.hash_function_first_level_.GetElementHash element % s.hash_table_.length)]
  exact List.length_replicate _ _

/-- The physical bucket `i` holds the elements sent to `i`, in input order. -/
theorem fillFirstLevel_getElem? (s : FixedSet) (elements : List Int) (i : Nat)
    (hlen : s.hash_table_.length = elements.length) (hi : i < elements.length) :
    (fillFirstLevel s elements)[i]?
      = some (backetOf s.hash_function_first_level_ elements i) := by
  unfold fillFirstLevel backetOf
  rw [foldl_push_getElem? (fun element =>
    s.hash_function_first_level_.GetElementHash element % s.hash_table_.length) elements i _ []
    (by rw [List.getElem?_replicate, if_pos hi])]
  rw [hlen]
  rfl

theorem length_SplitIntoBackets (s : FixedSet) (elements : List Int) :
    (SplitIntoBackets s elements).length = elements.length := by
  unfold SplitIntoBackets
  rw [foldl_count_length (fun element =>
    s.hash_function_first_level_.GetElementHash element % elements.length)]
  exact List.length_replicate _ _

/-- The size counted for index `i` is the length of bucket `i`. -/
theorem SplitIntoBackets_getElem? (s : FixedSet) (elements : List Int) (i : Nat)
    (hi : i < elements.length) :
    (SplitIntoBackets s elements)[i]?
      = some (backetOf s.hash_function_first_level_ elements i).length := by
  unfold SplitIntoBackets backetOf
  rw [foldl_count_getElem? (fun element =>
    s.hash_function_first_level_.GetElementHash element % elements.length) elements i _ 0
    (by rw [List.getElem?_replicate, if_pos hi])]
  rw [Nat.zero_add]

/-- The sizes counted by `SplitIntoBackets` are the lengths of the physical buckets. -/
theorem SplitIntoBackets_eq_map_length (s : FixedSet) (elements : List Int)
    (hlen : s.hash_table_.length = elements.length) :
    SplitIntoBackets s elements = (fillFirstLevel s elements).map List.length := by
  apply List.ext_getElem?
  intro i
  by_cases hi : i < elements.length
  · rw [SplitIntoBackets_getElem? s elements i hi, List.getElem?_map,
      fillFirstLevel_getElem? s elements i hlen hi]
    rfl
  · rw [List.getElem?_eq_none (by rw [length_SplitIntoBackets]; omega),
      List.getElem?_eq_none (by rw [List.length_map, length_fillFirstLevel]; omega)]

/-- The first retry loop keeps the tables and ends on a sampled function that passes the
balance test. -/
theorem sampleFirstLevel_spec (elements : List Int) :
    ∀ (gen gen1 : Gen) (s s1 : FixedSet), sampleFirstLevel elements s gen = some (s1, gen1) →
      s1.hash_table_ = s.hash_table_ ∧
      (∃ draw, s1.hash_function_first_level_ = coefficientsOf draw) ∧
      CountSumSquaredBacketSizes (SplitIntoBackets s1 elements)
        < kConstForBacketSize * elements.length % u64 := by
  intro gen
  induction gen with
  | nil => intro gen1 s s1 h; simp [sampleFirstLevel] at h
  | cons draw gen ih =>
    intro gen1 s s1 h
    unfold sampleFirstLevel at h
    simp only at h
    split at h
    · obtain ⟨h1, h2, h3⟩ := ih _ _ _ h
      exact ⟨h1, h2, h3⟩
    · rename_i hlt
      simp only [Option.some.injEq, Prod.mk.injEq] at h
      obtain ⟨rfl, rfl⟩ := h
      exact ⟨rfl, ⟨draw, rfl⟩, Nat.lt_of_not_ge hlt⟩

/-- The last loop of `MakeFirstLevelHashTable` stores at index `i_index + j` the table
constructed for the `j`-th bucket and leaves the number of tables unchanged. -/
theorem buildTables_spec (backets : List (List Int)) :
    ∀ (i_index : Nat) (hash_table hash_table1 : List PolinomialHashTableSecondLevel)
      (gen gen1 : Gen),
      buildTables backets i_index hash_table gen = some (hash_table1, gen1) →
      i_index + backets.length ≤ hash_table.length →
      hash_table1.length = hash_table.length ∧
      (∀ j, j < i_index → hash_table1[j]? = hash_table[j]?) ∧
      (∀ j backet, backets[j]? = some backet → ∃ t g g1,
        construct g backet = some (t, g1) ∧ hash_table1[i_index + j]? = some t) := by
  induction backets with
  | nil =>
    intro i_index hash_table hash_table1 gen gen1 h _
    simp only [buildTables, Option.some.injEq, Prod.mk.injEq] at h
    obtain ⟨rfl, _⟩ := h
    simp
  | cons backet rest ih =>
    intro i_index hash_table hash_table1 gen gen1 h hlen
    unfold buildTables at h
    cases hc : construct gen backet with
    | none => simp [hc] at h
    | some r =>
      obtain ⟨t, gen2⟩ := r
      simp only [hc] at h
      simp only [List.length_cons] at hlen
      obtain ⟨ihl, ihkeep, ihnew⟩ := ih _ _ _ _ _ h (by rw [List.length_set]; omega)
      rw [List.length_set] at ihl
      refine ⟨ihl, ?_, ?_⟩
      · intro j hj
        rw [ihkeep j (by omega), List.getElem?_set_ne (by omega)]
      · intro j b hb
        cases j with
        | zero =>
          simp only [List.getElem?_cons_zero, Option.some.injEq] at hb
          subst hb
          refine ⟨t, gen, gen2, hc, ?_⟩
          rw [Nat.add_zero, ihkeep i_index (by omega), List.getElem?_set_self (by omega)]
        | succ j =>
          simp only [List.getElem?_cons_succ] at hb
          obtain ⟨t1, g, g1, h1, h2⟩ := ihnew j b hb
          exact ⟨t1, g, g1, h1, by rw [← h2]; congr 1; omega⟩

/-- What a completed `Initialize` leaves on a non-empty list: a sampled first-level function
that passes the balance test and, at every index, the table constructed for that bucket. -/
theorem Initialize_spec (s s1 : FixedSet) (elements : List Int) (gen gen1 : Gen)
    (hne : elements ≠ []) (h : Initialize s elements gen = some (s1, gen1)) :
    (∃ draw, s1.hash_function_first_level_ = coefficientsOf draw) ∧
    s1.hash_table_.length = elements.length ∧
    CountSumSquaredBacketSizes (SplitIntoBackets s1 elements)
      < kConstForBacketSize * elements.length % u64 ∧
    (∀ i, i < elements.length → ∃ t g g1,
      construct g (backetOf s1.hash_function_first_level_ elements i) = some (t, g1) ∧
      s1.hash_table_[i]? = some t) := by
  unfold Initialize MakeFirstLevelHashTable at h
  have he : elements.isEmpty = false := by
    cases elements with
    | nil => exact absurd rfl hne
    | cons a l => rfl
  simp only [he, Bool.false_eq_true, if_false] at h
  cases hs : sampleFirstLevel elements
      { s with hash_table_ := resize s.hash_table_ elements.length {} } gen with
  | none => simp [hs] at h
  | some r =>
    obtain ⟨s2, gen2⟩ := r
    simp only [hs] at h
    obtain ⟨hht, hdraw, hbal⟩ := sampleFirstLevel_spec _ _ _ _ _ hs
    simp only at hht
    have hlen : s2.hash_table_.length = elements.length := by rw [hht, length_resize]
    cases hb : buildTables (fillFirstLevel s2 elements) 0 s2.hash_table_ gen2 with
    | none => simp [hb] at h
    | some r =>
      obtain ⟨hash_table, gen3⟩ := r
      simp only [hb, Option.some.injEq, Prod.mk.injEq] at h
      obtain ⟨rfl, _⟩ := h
      obtain ⟨hl, _, hnew⟩ := buildTables_spec _ _ _ _ _ _ hb
        (by rw [length_fillFirstLevel, hlen]; omega)
      refine ⟨hdraw, by rw [hl, hlen], hbal, ?_⟩
      intro i hi
      obtain ⟨t, g, g1, h1, h2⟩ := hnew i _ (fillFirstLevel_getElem? s2 elements i hlen hi)
      rw [Nat.zero_add] at h2
      exact ⟨t, g, g1, h1, h2⟩

/-- The two stages of a completed `Initialize` on a non-empty list: the first retry loop ends in
a state `s2`, and the tables replace those of `s2`. -/
theorem Initialize_steps (s s1 : FixedSet) (elements : List Int) (gen gen1 : Gen)
    (hne : elements ≠ []) (h : Initialize s elements gen = some (s1, gen1)) :
    ∃ s2 gen2 hash_table,
      sampleFirstLevel elements
        { s with hash_table_ := resize s.hash_table_ elements.length {} } gen
        = some (s2, gen2) ∧
      buildTables (fillFirstLevel s2 elements) 0 s2.hash_table_ gen2 = some (hash_table, gen1) ∧
      s2.hash_table_.length = elements.length ∧
      s1 = { s2 with hash_table_ := hash_table } := by
  unfold Initialize MakeFirstLevelHashTable at h
  have he : elements.isEmpty = false := by
    cases elements with
    | nil => exact absurd rfl hne
    | cons a l => rfl
  simp only [he, Bool.false_eq_true, if_false] at h
  cases hs : sampleFirstLevel elements
      { s with hash_table_ := resize s.hash_table_ elements.length {} } gen with
  | none => simp [hs] at h
  | some r =>
    obtain ⟨s2, gen2⟩ := r
    simp only [hs] at h
    obtain ⟨hht, _, _⟩ := sampleFirstLevel_spec _ _ _ _ _ hs
    simp only at hht
    cases hb : buildTables (fillFirstLevel s2 elements) 0 s2.hash_table_ gen2 with
    | none => simp [hb] at h
    | some r =>
      obtain ⟨hash_table, gen3⟩ := r
      simp only [hb, Option.some.injEq, Prod.mk.injEq] at h
      obtain ⟨rfl, rfl⟩ := h
      exact ⟨s2, gen2, hash_table, rfl, hb, by rw [hht, length_resize], rfl⟩

/-- After a completed `Initialize`, `Contains` answers membership in the input list. -/
theorem Initialize_contains (s s1 : FixedSet) (elements : List Int) (gen gen1 : Gen)
    (h : Initialize s elements gen = some (s1, gen1)) (x : Int) :
    s1.Contains x = true ↔ x ∈ elements := by
  by_cases hne : elements = []
  · subst hne
    simp only [Initialize, MakeFirstLevelHashTable, List.isEmpty_nil, if_true,
      Option.some.injEq, Prod.mk.injEq] at h
    obtain ⟨rfl, _⟩ := h
    simp [Contains, resize]
  · obtain ⟨_, hlen, _, htab⟩ := Initialize_spec s s1 elements gen gen1 hne h
    have hpos : 0 < elements.length := List.length_pos.2 hne
    have hempty : s1.hash_table_.isEmpty = false := by
      cases hq : s1.hash_table_ with
      | nil => rw [hq] at hlen; simp at hlen; omega
      | cons _ _ => rfl
    obtain ⟨t, g, g1, hc, ht⟩ := htab
      (s1.hash_function_first_level_.GetElementHash x % elements.length) (Nat.mod_lt _ hpos)
    unfold Contains
    rw [hempty, hlen, ht]
    simp only [Bool.false_eq_true, if_false]
    rw [construct_contains g g1 _ t hc x]
    simp [backetOf]

end FixedSet

end FixedSetModel

namespace FixedSetModel

namespace FixedSet

open PolinomialHashTableSecondLevel (construct second_level_hashtable_size slotOf
  MakeSecondLevelHashTable_spec)

/-! ## Sizes: when the `size_t` arithmetic does not wrap -/

/-- The `uint64_t` sum is the sum of the squares modulo `2^64`. -/
theorem foldl_sumSquares (l : List Nat) :
    ∀ acc : Nat, l.foldl (fun sum size => (sum + size * size % u64) % u64) acc
      = (acc + (l.map (fun size => size * size)).sum) % u64 ∨ l = [] := by
  induction l with
  | nil => intro acc; exact Or.inr rfl
  | cons c rest ih =>
    intro acc
    left
    rw [List.foldl_cons]
    rcases ih ((acc + c * c % u64) % u64) with h | h
    · rw [h, List.map_cons, List.sum_cons]
      simp only [u64]
      omega
    · subst h
      simp only [List.foldl_nil, List.map_cons, List.map_nil, List.sum_cons, List.sum_nil, u64]
      omega

theorem CountSumSquaredBacketSizes_eq (l : List Nat) :
    CountSumSquaredBacketSizes l = (l.map (fun size => size * size)).sum % u64 := by
  unfold CountSumSquaredBacketSizes
  rcases foldl_sumSquares l 0 with h | h
  · rw [h, Nat.zero_add]
  · subst h
    rfl

theorem sum_squares_le_square_sum (l : List Nat) :
    (l.map (fun size => size * size)).sum ≤ l.sum * l.sum := by
  induction l with
  | nil => simp
  | cons c rest ih =>
    simp only [List.map_cons, List.sum_cons]
    nlinarith [ih, Nat.zero_le (c * rest.sum)]

theorem square_le_sum_squares (l : List Nat) (c : Nat) (hc : c ∈ l) :
    c * c ≤ (l.map (fun size => size * size)).sum := by
  induction l with
  | nil => simp at hc
  | cons d rest ih =>
    simp only [List.map_cons, List.sum_cons]
    rcases List.mem_cons.1 hc with rfl | h
    · omega
    · have := ih h
      omega

theorem foldl_count_sum (f : Int → Nat) (elements : List Int) :
    ∀ acc : List Nat, (∀ element ∈ elements, f element < acc.length) →
      (elements.foldl (fun sizes element =>
        sizes.set (f element) (sizes.getD (f element) 0 + 1)) acc).sum
        = acc.sum + elements.length := by
  induction elements with
  | nil => intro acc _; simp
  | cons e rest ih =>
    intro acc h
    rw [List.foldl_cons, ih _ (by
      intro x hx
      rw [List.length_set]
      exact h x (List.mem_cons_of_mem _ hx))]
    have he : f e < acc.length := h e (List.mem_cons_self _ _)
    have hset : ∀ (l : List Nat) (i : Nat), i < l.length →
        (l.set i (l.getD i 0 + 1)).sum = l.sum + 1 := by
      intro l
      induction l with
      | nil => intro i hi; simp at hi
      | cons a l ihl =>
        intro i hi
        cases i with
        | zero => simp; omega
        | succ i =>
          simp only [List.length_cons, Nat.add_lt_add_iff_right] at hi
          simp only [List.set_cons_succ, List.sum_cons, List.getD_cons_succ]
          rw [ihl i hi]
          omega
    rw [hset acc (f e) he, List.length_cons]
    omega

/-- The counted sizes add up to the number of elements. -/
theorem sum_SplitIntoBackets (s : FixedSet) (elements : List Int) :
    (SplitIntoBackets s elements).sum = elements.length := by
  unfold SplitIntoBackets
  rw [foldl_count_sum (fun element =>
    s.hash_function_first_level_.GetElementHash element % elements.length)]
  · simp
  · intro e he
    rw [List.length_replicate]
    exact Nat.mod_lt _ (List.length_pos.2 (List.ne_nil_of_mem he))

/-- For fewer than `2^32` elements an accepted balance test is the unwrapped inequality. -/
theorem balance_of_accepted (s : FixedSet) (elements : List Int)
    (hn : elements.length < u32)
    (h : CountSumSquaredBacketSizes (SplitIntoBackets s elements)
      < kConstForBacketSize * elements.length % u64) :
    ((SplitIntoBackets s elements).map (fun size => size * size)).sum
      < 4 * elements.length := by
  rw [CountSumSquaredBacketSizes_eq] at h
  have h1 := sum_squares_le_square_sum (SplitIntoBackets s elements)
  rw [sum_SplitIntoBackets] at h1
  have h2 : elements.length * elements.length < u64 := by
    simp only [u32, u64] at *
    nlinarith
  simp only [u32, u64, kConstForBacketSize] at *
  omega

/-- A bucket that passed the balance test among fewer than `2^32` elements gets a table of
`4 * m * m` slots without wrap-around. -/
theorem second_level_hashtable_size_of_balanced (n m : Nat) (hn : n < u32)
    (hm : m * m < 4 * n) : second_level_hashtable_size m = 4 * m * m := by
  unfold second_level_hashtable_size PolinomialHashTableSecondLevel.kConstForBacketSize
  simp only [u32, u64] at *
  have h1 : m < 131072 := by nlinarith
  have h2 : 4 * m * m < 4 * 131072 * 131072 := by nlinarith
  rw [Nat.mod_eq_of_lt (a := 4 * m) (by omega), Nat.mod_eq_of_lt (a := 4 * m * m) (by omega)]

/-- A list of pairwise distinct 32-bit integers has at most `2^32` elements, and one with
exactly `2^32` elements holds every 32-bit integer. -/
theorem nodup_int32_length (elements : List Int) (hd : elements.Nodup)
    (hr : ∀ e ∈ elements, isInt32 e) :
    elements.length ≤ u32 ∧
      (elements.length = u32 → ∀ x, isInt32 x → x ∈ elements) := by
  have hsub : elements.toFinset ⊆ Finset.Icc (-2147483648 : Int) 2147483647 := by
    intro e he
    rw [List.mem_toFinset] at he
    exact Finset.mem_Icc.2 (hr e he)
  have hcard : (Finset.Icc (-2147483648 : Int) 2147483647).card = u32 := by
    rw [Int.card_Icc]
    rfl
  have hlen : elements.toFinset.card = elements.length := List.toFinset_card_of_nodup hd
  constructor
  · rw [← hlen, ← hcard]
    exact Finset.card_le_card hsub
  · intro hfull x hx
    have heq := Finset.eq_of_subset_of_card_le hsub (by rw [hcard, hlen, hfull])
    have : x ∈ elements.toFinset := by
      rw [heq]
      exact Finset.mem_Icc.2 hx
    exact List.mem_toFinset.1 this

/-- The constructor never completes on a bucket that holds two different elements with the
same hash under every sampled function. -/
theorem construct_none_of_same_hash (gen : Gen) (backet : List Int) (x y : Int)
    (hx : x ∈ backet) (hy : y ∈ backet) (hxy : x ≠ y)
    (hsame : ∀ draw, (coefficientsOf draw).GetElementHash x
      = (coefficientsOf draw).GetElementHash y) :
    construct gen backet = none := by
  cases hc : construct gen backet with
  | none => rfl
  | some r =>
    exfalso
    obtain ⟨t, gen1⟩ := r
    obtain ⟨_, ⟨draw, hd⟩, _, hplaced⟩ :=
      MakeSecondLevelHashTable_spec _ _ _ _ backet (List.ne_nil_of_mem hx) hc
    have h1 := hplaced x hx
    have h2 := hplaced y hy
    unfold slotOf at h1 h2
    rw [hd, hsame draw, ← hd, h2] at h1
    simp only [Option.some.injEq] at h1
    exact hxy h1.symm

/-- `Initialize` never completes on a list that holds both `0` and `kBigPrime`. -/
theorem Initialize_none_of_zero_prime (s : FixedSet) (elements : List Int) (gen : Gen)
    (h0 : (0 : Int) ∈ elements) (hp : (2000000011 : Int) ∈ elements) :
    Initialize s elements gen = none := by
  cases hi : Initialize s elements gen with
  | none => rfl
  | some r =>
    exfalso
    obtain ⟨s1, gen1⟩ := r
    obtain ⟨⟨draw, hd⟩, _, _, htab⟩ :=
      Initialize_spec s s1 elements gen gen1 (List.ne_nil_of_mem h0) hi
    have hpos : 0 < elements.length := List.length_pos.2 (List.ne_nil_of_mem h0)
    have hsame : ∀ d, (coefficientsOf d).GetElementHash 0
        = (coefficientsOf d).GetElementHash 2000000011 := fun d =>
      GetElementHash_zero_eq_prime _ (coefficientsOf_first_lt d) (coefficientsOf_second_lt d)
    obtain ⟨t, g, g1, hc, _⟩ := htab
      (s1.hash_function_first_level_.GetElementHash 0 % elements.length) (Nat.mod_lt _ hpos)
    rw [construct_none_of_same_hash g _ 0 2000000011 ?_ ?_ (by norm_num) hsame] at hc
    · simp at hc
    · simp [backetOf, h0]
    · simp only [backetOf, List.mem_filter, hp, true_and, decide_eq_true_eq]
      rw [hd, hsame draw]

/-- `Initialize` never completes on a list that holds two different keys with the same hash
under every function. -/
theorem Initialize_none_of_same_hash (s : FixedSet) (elements : List Int) (gen : Gen)
    (x y : Int) (hx : x ∈ elements) (hy : y ∈ elements) (hxy : x ≠ y)
    (hsame : ∀ h : LinearHashFunction, h.GetElementHash x = h.GetElementHash y) :
    Initialize s elements gen = none := by
  cases hi : Initialize s elements gen with
  | none => rfl
  | some r =>
    exfalso
    obtain ⟨s1, gen1⟩ := r
    obtain ⟨_, _, _, htab⟩ := Initialize_spec s s1 elements gen gen1 (List.ne_nil_of_mem hx) hi
    have hpos : 0 < elements.length := List.length_pos.2 (List.ne_nil_of_mem hx)
    obtain ⟨t, g, g1, hc, _⟩ := htab
      (s1.hash_function_first_level_.GetElementHash x % elements.length) (Nat.mod_lt _ hpos)
    rw [construct_none_of_same_hash g _ x y ?_ ?_ hxy (fun d => hsame _)] at hc
    · simp at hc
    · simp [backetOf, hx]
    · simp only [backetOf, List.mem_filter, hy, true_and, decide_eq_true_eq]
      rw [hsame]

/-- A completed `Initialize` on pairwise distinct 32-bit integers had fewer than `2^32` of
them. -/
theorem length_lt_of_Initialize (s s1 : FixedSet) (elements : List Int) (gen gen1 : Gen)
    (h : Initialize s elements gen = some (s1, gen1))
    (hfit : elements.length < u32 ∨ (elements.Nodup ∧ ∀ e ∈ elements, isInt32 e)) :
    elements.length < u32 := by
  rcases hfit with hlt | ⟨hd, hr⟩
  · exact hlt
  · obtain ⟨hle, hfull⟩ := nodup_int32_length elements hd hr
    rcases Nat.lt_or_eq_of_le hle with hlt | heq
    · exact hlt
    · exfalso
      have h0 := hfull heq 0 (by unfold isInt32; norm_num)
      have hp := hfull heq 2000000011 (by unfold isInt32; norm_num)
      rw [Initialize_none_of_zero_prime s elements gen h0 hp] at h
      simp at h

end FixedSet

end FixedSetModel

namespace FixedSetModel

/-! ## Longer generator sequences

A build that completes on a sequence of draws completes in the same way on every longer
sequence, and leaves the extra draws untouched: whether `Initialize` completes on an infinite
sequence does not depend on which finite initial segment of it is taken. -/

namespace PolinomialHashTableSecondLevel

theorem retryLoop_append (backet : List Int) (more : Gen) :
    ∀ (gen gen1 : Gen) (t t1 : PolinomialHashTableSecondLevel),
      retryLoop backet t gen = some (t1, gen1) →
      retryLoop backet t (gen ++ more) = some (t1, gen1 ++ more) := by
  intro gen
  induction gen with
  | nil => intro gen1 t t1 h; simp [retryLoop] at h
  | cons draw gen ih =>
    intro gen1 t t1 h
    rw [List.cons_append]
    unfold retryLoop at h ⊢
    cases hp : SplitedIntoBacketsWithCollisions
        { t with hash_function_ := coefficientsOf draw } backet with
    | none => simp [hp] at h
    | some r =>
      obtain ⟨answer, t2⟩ := r
      cases answer with
      | true =>
        simp only [hp] at h ⊢
        exact ih _ _ _ h
      | false =>
        simp only [hp, Option.some.injEq, Prod.mk.injEq] at h ⊢
        obtain ⟨rfl, rfl⟩ := h
        exact ⟨rfl, rfl⟩

theorem construct_append (backet : List Int) (more gen gen1 : Gen)
    (t : PolinomialHashTableSecondLevel) (h : construct gen backet = some (t, gen1)) :
    construct (gen ++ more) backet = some (t, gen1 ++ more) := by
  unfold construct MakeSecondLevelHashTable at h ⊢
  split at h
  · rename_i he
    simp only [Option.some.injEq, Prod.mk.injEq] at h
    obtain ⟨rfl, rfl⟩ := h
    simp only [he, if_true]
  · rename_i he
    simp only [he, if_false]
    exact retryLoop_append backet more _ _ _ _ h

end PolinomialHashTableSecondLevel

namespace FixedSet

open PolinomialHashTableSecondLevel (construct construct_append)

theorem sampleFirstLevel_append (elements : List Int) (more : Gen) :
    ∀ (gen gen1 : Gen) (s s1 : FixedSet), sampleFirstLevel elements s gen = some (s1, gen1) →
      sampleFirstLevel elements s (gen ++ more) = some (s1, gen1 ++ more) := by
  intro gen
  induction gen with
  | nil => intro gen1 s s1 h; simp [sampleFirstLevel] at h
  | cons draw gen ih =>
    intro gen1 s s1 h
    rw [List.cons_append]
    unfold sampleFirstLevel at h ⊢
    simp only at h ⊢
    split at h
    · rename_i hge
      rw [if_pos hge]
      exact ih _ _ _ h
    · rename_i hlt
      rw [if_neg hlt]
      simp only [Option.some.injEq, Prod.mk.injEq] at h ⊢
      obtain ⟨rfl, rfl⟩ := h
      exact ⟨rfl, rfl⟩

theorem buildTables_append (more : Gen) (backets : List (List Int)) :
    ∀ (i_index : Nat) (hash_table hash_table1 : List PolinomialHashTableSecondLevel)
      (gen gen1 : Gen),
      buildTables backets i_index hash_table gen = some (hash_table1, gen1) →
      buildTables backets i_index hash_table (gen ++ more)
        = some (hash_table1, gen1 ++ more) := by
  induction backets with
  | nil =>
    intro i_index hash_table hash_table1 gen gen1 h
    simp only [buildTables, Option.some.injEq, Prod.mk.injEq] at h ⊢
    obtain ⟨rfl, rfl⟩ := h
    exact ⟨rfl, rfl⟩
  | cons backet rest ih =>
    intro i_index hash_table hash_table1 gen gen1 h
    unfold buildTables at h ⊢
    cases hc : construct gen backet with
    | none => simp [hc] at h
    | some r =>
      obtain ⟨t, gen2⟩ := r
      simp only [hc] at h
      simp only [construct_append backet more gen gen2 t hc]
      exact ih _ _ _ _ _ h

/-- A completed `Initialize` completes with the same structure on every longer sequence of
draws. -/
theorem Initialize_append (s s1 : FixedSet) (elements : List Int) (gen gen1 more : Gen)
    (h : Initialize s elements gen = some (s1, gen1)) :
    Initialize s elements (gen ++ more) = some (s1, gen1 ++ more) := by
  unfold Initialize MakeFirstLevelHashTable at h ⊢
  split at h
  · rename_i he
    simp only [Option.some.injEq, Prod.mk.injEq] at h
    obtain ⟨rfl, rfl⟩ := h
    simp only [he, if_true]
  · rename_i he
    simp only [he, if_false]
    cases hs : sampleFirstLevel elements
        { s with hash_table_ := resize s.hash_table_ elements.length {} } gen with
    | none => simp [hs] at h
    | some r =>
      obtain ⟨s2, gen2⟩ := r
      simp only [hs] at h
      simp only [sampleFirstLevel_append elements more _ _ _ _ hs]
      cases hb : buildTables (fillFirstLevel s2 elements) 0 s2.hash_table_ gen2 with
      | none => simp [hb] at h
      | some r =>
        obtain ⟨hash_table, gen3⟩ := r
        simp only [hb, Option.some.injEq, Prod.mk.injEq] at h
        obtain ⟨rfl, rfl⟩ := h
        simp only [buildTables_append more _ _ _ _ _ _ hb]
        rfl

end FixedSet

end FixedSetModel

namespace FixedSetModel

namespace PolinomialHashTableSecondLevel

/-- A second-level build of a one-element bucket accepts the first sampled function. -/
theorem construct_singleton (e : Int) (draw : Nat × Nat) (gen : Gen) :
    ∃ t, construct (draw :: gen) [e] = some (t, gen) ∧
      t.hash_function_ = coefficientsOf draw := by
  have hsize : second_level_hashtable_size [e].length = 4 := by
    rw [List.length_singleton]
    decide
  have hfalse : CollisionAppeared
      { hash_function_ := coefficientsOf draw,
        hash_table_second_level_ := List.replicate 4 none } e 4 = some false := by
    rw [collisionAppeared_false_iff]
    refine ⟨by decide, Or.inl ?_⟩
    rw [List.getElem?_replicate, if_pos]
    exact Nat.mod_lt _ (by decide)
  refine ⟨{ hash_function_ := coefficientsOf draw,
            hash_table_second_level_ := (List.replicate 4 none).set
              ((coefficientsOf draw).GetElementHash e % 4) (some e) }, ?_, ?_⟩
  · unfold construct MakeSecondLevelHashTable
    simp only [List.isEmpty_cons, Bool.false_eq_true, if_false]
    rw [resize_nil, resize_replicate, hsize]
    unfold retryLoop SplitedIntoBacketsWithCollisions
    rw [hsize]
    unfold placeElements
    simp only [hfalse, placeElements]
  · rfl

end PolinomialHashTableSecondLevel

namespace FixedSet

open PolinomialHashTableSecondLevel (construct_singleton)

theorem Initialize_singleton (s : FixedSet) (e : Int) (d1 d2 : Nat × Nat) (gen : Gen) :
    ∃ s1 t, Initialize s [e] (d1 :: d2 :: gen) = some (s1, gen) ∧
      s1.hash_function_first_level_ = coefficientsOf d1 ∧
      s1.hash_table_ = [t] ∧ t.hash_function_ = coefficientsOf d2 := by
  obtain ⟨t, hc, ht⟩ := construct_singleton e d2 gen
  have hlen : (resize s.hash_table_ [e].length {}).length = 1 :=
    PolinomialHashTableSecondLevel.length_resize _ _ _
  obtain ⟨t0, ht0⟩ : ∃ t0, resize s.hash_table_ [e].length {} = [t0] := by
    cases hq : resize s.hash_table_ [e].length {} with
    | nil => rw [hq] at hlen; simp at hlen
    | cons a l =>
      cases l with
      | nil => exact ⟨a, rfl⟩
      | cons b l => rw [hq] at hlen; simp at hlen
  refine ⟨{ hash_function_first_level_ := coefficientsOf d1, hash_table_ := [t] }, t, ?_,
    rfl, rfl, ht⟩
  unfold Initialize MakeFirstLevelHashTable
  simp only [List.isEmpty_cons, Bool.false_eq_true, if_false]
  rw [ht0]
  have hsplit : ∀ s2 : FixedSet, SplitIntoBackets s2 [e] = [1] := by
    intro s2
    simp [SplitIntoBackets, Nat.mod_one]
  have hsample : sampleFirstLevel [e] { s with hash_table_ := [t0] } (d1 :: d2 :: gen)
      = some ({ hash_function_first_level_ := coefficientsOf d1, hash_table_ := [t0] },
          d2 :: gen) := by
    unfold sampleFirstLevel
    simp only [hsplit]
    rw [List.length_singleton, if_neg (by decide)]
  rw [hsample]
  have hfill : fillFirstLevel
      { hash_function_first_level_ := coefficientsOf d1, hash_table_ := [t0] } [e] = [[e]] := by
    simp [fillFirstLevel, Nat.mod_one]
  simp only [hfill, buildTables, hc, List.set_cons_zero]

end FixedSet

end FixedSetModel

namespace FixedSetModel

/-! ## The retry loops and `MakeRandomLinearHashFunction` -/

namespace PolinomialHashTableSecondLevel

/-- One turn of the `do ... while` loop of `MakeSecondLevelHashTable`: the function comes from
`MakeRandomLinearHashFunction`. -/
theorem retryLoop_eq (backet : List Int) (t : PolinomialHashTableSecondLevel) (gen : Gen) :
    retryLoop backet t gen =
      match MakeRandomLinearHashFunction gen with
      | none => none
      | some (h, gen1) =>
        match SplitedIntoBacketsWithCollisions { t with hash_function_ := h } backet with
        | none => none
        | some (true, t1) => retryLoop backet t1 gen1
        | some (false, t1) => some (t1, gen1) := by
  cases gen with
  | nil => rfl
  | cons draw gen => rfl

end PolinomialHashTableSecondLevel

namespace FixedSet

/-- One turn of the first `do ... while` loop of `MakeFirstLevelHashTable`: the function comes
from `MakeRandomLinearHashFunction`. -/
theorem sampleFirstLevel_eq (elements : List Int) (s : FixedSet) (gen : Gen) :
    sampleFirstLevel elements s gen =
      match MakeRandomLinearHashFunction gen with
      | none => none
      | some (h, gen1) =>
        if CountSumSquaredBacketSizes
            (SplitIntoBackets { s with hash_function_first_level_ := h } elements)
            ≥ kConstForBacketSize * elements.length % u64 then
          sampleFirstLevel elements { s with hash_function_first_level_ := h } gen1
        else some ({ s with hash_function_first_level_ := h }, gen1) := by
  cases gen with
  | nil => rfl
  | cons draw gen => rfl

end FixedSet

end FixedSetModel

namespace FixedSetModel

/-! ## The claims -/

/-- C5 (the code at the failing input): for the negative 32-bit integer `x = -2147483648` and
the coefficients `a = 1`, `b = 0`, the value `x + p` is negative, so it does not lie in
`[0, p-1]`; `GetElementHash` works on its conversion to `uint64_t` and returns `104976133`,
which is neither `(a*(x + p) + b) mod p` nor `(a*(x mod p) + b) mod p`, both `1852516374`.
Under every function `-2147483648` gets the hash of the key `104976133`, and `Initialize` does
not complete on the list of these two distinct 32-bit integers, whatever the generator
yields. -/
theorem GetElementHash_below_minus_prime :
    isInt32 (-2147483648) ∧ (-2147483648 : Int) < 0 ∧
    ¬ (0 ≤ (-2147483648 : Int) + 2000000011) ∧
    (LinearHashFunction.mk 1 0).GetElementHash (-2147483648) = 104976133 ∧
    (1 * ((-2147483648 : Int) + 2000000011) + 0) % 2000000011 = 1852516374 ∧
    (1 * ((-2147483648 : Int) % 2000000011) + 0) % 2000000011 = 1852516374 ∧
    ((LinearHashFunction.mk 1 0).GetElementHash (-2147483648) : Int)
      ≠ (1 * ((-2147483648 : Int) % 2000000011) + 0) % 2000000011 ∧
    (∀ h : LinearHashFunction,
      h.GetElementHash (-2147483648) = h.GetElementHash 104976133) ∧
    (∀ (s : FixedSet) (gen : Gen),
      FixedSet.Initialize s [-2147483648, 104976133] gen = none) := by
  have hsame : ∀ h : LinearHashFunction,
      h.GetElementHash (-2147483648) = h.GetElementHash 104976133 := by
    intro h
    have h1 : (toUInt64 (-2147483648) + kBigPrime) % u64 % kBigPrime = 104976133 := by decide
    have h2 : toUInt64 104976133 = 104976133 := by decide
    unfold LinearHashFunction.GetElementHash LinearHashFunction.hashWide
    rw [if_pos (by decide), if_neg (by decide), h1, h2]
  refine ⟨by decide, by decide, by decide, by decide, by decide, by decide, by decide,
    hsame, ?_⟩
  intro s gen
  exact FixedSet.Initialize_none_of_same_hash s _ gen (-2147483648) 104976133 (by simp)
    (by simp) (by decide) hsame

/-- Where the shift by `p` works: for every 32-bit integer `x` with `-p <= x`
(`p = 2000000011`) and all coefficients `a`, `b` in `[0, p-1]`, a negative `x` is replaced by
`x + p` in `[0, p-1]`, and `GetElementHash(x) = (a*(x mod p) + b) mod p` with `x mod p` the
canonical non-negative residue. -/
theorem GetElementHash_canonical (a b : Nat) (x : Int) (ha : a < kBigPrime)
    (hb : b < kBigPrime) (hx : isInt32 x) (hlow : -2000000011 ≤ x) :
    (x < 0 → 0 ≤ x + 2000000011 ∧ x + 2000000011 ≤ 2000000010 ∧
      ((LinearHashFunction.mk a b).GetElementHash x : Int)
        = ((a : Int) * (x + 2000000011) + b) % 2000000011) ∧
    ((LinearHashFunction.mk a b).GetElementHash x : Int)
      = ((a : Int) * (x % 2000000011) + b) % 2000000011 := by
  have ha1 : (LinearHashFunction.mk a b).first_coeff_ < u32 := lt_trans ha kBigPrime_lt_u32
  have hb1 : (LinearHashFunction.mk a b).second_coeff_ < u32 := lt_trans hb kBigPrime_lt_u32
  by_cases hneg : x < 0
  · have hshift : ((LinearHashFunction.mk a b).GetElementHash x : Int)
        = ((a : Int) * (x + 2000000011) + b) % 2000000011 := by
      rw [GetElementHash_of_neg _ x ha1 hb1 hneg hlow]
      simp only [kBigPrime]
      push_cast
      rw [Int.toNat_of_nonneg (by omega)]
    have hres : x % 2000000011 = x + 2000000011 := by omega
    refine ⟨fun _ => ⟨by omega, by omega, hshift⟩, ?_⟩
    rw [hres]
    exact hshift
  · refine ⟨fun h => absurd h hneg, ?_⟩
    rw [GetElementHash_of_nonneg _ x ha1 hb1 (by omega) hx.2]
    simp only [kBigPrime]
    push_cast
    rw [Int.toNat_of_nonneg (by omega)]
    have hsplit : (a : Int) * x + b
        = ((a : Int) * (x % 2000000011) + b) + 2000000011 * ((a : Int) * (x / 2000000011)) := by
      have hdiv := Int.emod_add_ediv x 2000000011
      linear_combination (-(a : Int)) * hdiv
    rw [hsplit, Int.add_mul_emod_self_left]

theorem GetElementHash_canonical_witness :
    3 < kBigPrime ∧ 7 < kBigPrime ∧ isInt32 (-3) ∧ (-2000000011 : Int) ≤ -3 ∧
    (((-3 : Int) < 0 → 0 ≤ (-3 : Int) + 2000000011 ∧ (-3 : Int) + 2000000011 ≤ 2000000010 ∧
      ((LinearHashFunction.mk 3 7).GetElementHash (-3) : Int)
        = (((3 : Nat) : Int) * (-3 + 2000000011) + ((7 : Nat) : Int)) % 2000000011) ∧
    ((LinearHashFunction.mk 3 7).GetElementHash (-3) : Int)
      = (((3 : Nat) : Int) * (-3 % 2000000011) + ((7 : Nat) : Int)) % 2000000011) :=
  ⟨by decide, by decide, by decide, by decide,
    GetElementHash_canonical 3 7 (-3) (by decide) (by decide) (by decide) (by decide)⟩

/-- C6: for every key `x` (in particular every 32-bit signed integer, `-2147483648` and
`2147483647` included) and every pair of coefficients `a`, `b`, the value of
`LinearHashFunction(a, b).GetElementHash(x)` lies in `[0, p-1]` with `p = 2000000011`, and
narrowing the 64-bit result to the 32-bit return type loses nothing: the returned value is the
64-bit value. -/
theorem GetElementHash_range (a b : Nat) (x : Int) :
    (LinearHashFunction.mk a b).GetElementHash x < kBigPrime ∧
    kBigPrime = 2000000011 ∧
    (LinearHashFunction.mk a b).GetElementHash x = (LinearHashFunction.mk a b).hashWide x :=
  ⟨GetElementHash_lt _ x, rfl, GetElementHash_eq_hashWide _ x⟩

namespace PolinomialHashTableSecondLevel

/-- C3: whenever `MakeSecondLevelHashTable` finishes on a bucket of `m >= 1` pairwise distinct
elements, after any number of rejected candidates, the stored function `h` sends no two
distinct elements of the bucket to the same slot modulo `4*m*m`, the slot
`h(x) mod (4*m*m)` of the stored table holds `x` for every element `x` of the bucket, and the
table has `4*m*m` slots. -/
theorem perfect_hash_invariant (t t1 : PolinomialHashTableSecondLevel) (gen gen1 : Gen)
    (backet : List Int) (hne : backet ≠ []) (hdistinct : backet.Nodup)
    (h : MakeSecondLevelHashTable t gen backet = some (t1, gen1)) :
    (∀ x ∈ backet, ∀ y ∈ backet, x ≠ y →
      t1.hash_function_.GetElementHash x % (4 * backet.length * backet.length)
        ≠ t1.hash_function_.GetElementHash y % (4 * backet.length * backet.length)) ∧
    (∀ x ∈ backet,
      t1.hash_table_second_level_[
        t1.hash_function_.GetElementHash x % (4 * backet.length * backet.length)]?
          = some (some x)) ∧
    t1.hash_table_second_level_.length = 4 * backet.length * backet.length := by
  obtain ⟨_, _, hl, hplaced⟩ := MakeSecondLevelHashTable_spec t t1 gen gen1 backet hne h
  unfold slotOf at hplaced
  have hinj : ∀ x ∈ backet, ∀ y ∈ backet,
      t1.hash_function_.GetElementHash x = t1.hash_function_.GetElementHash y → x = y := by
    intro x hx y hy hxy
    have h1 := hplaced x hx
    rw [hxy, hplaced y hy] at h1
    simpa using h1.symm
  have hm : backet.length ≤ kBigPrime := by
    have hnd : (backet.map t1.hash_function_.GetElementHash).Nodup :=
      List.Nodup.map_on hinj hdistinct
    have hsub : (backet.map t1.hash_function_.GetElementHash).toFinset
        ⊆ Finset.range kBigPrime := by
      intro v hv
      rw [List.mem_toFinset, List.mem_map] at hv
      obtain ⟨x, _, rfl⟩ := hv
      exact Finset.mem_range.2 (GetElementHash_lt _ x)
    have hcard := Finset.card_le_card hsub
    rw [List.toFinset_card_of_nodup hnd, List.length_map, Finset.card_range] at hcard
    exact hcard
  have hsize : second_level_hashtable_size backet.length
      = 4 * backet.length * backet.length := by
    unfold second_level_hashtable_size kConstForBacketSize
    simp only [kBigPrime, u64] at *
    have h2 : 4 * backet.length * backet.length ≤ 4 * 2000000011 * 2000000011 :=
      Nat.mul_le_mul (Nat.mul_le_mul_left 4 hm) hm
    rw [Nat.mod_eq_of_lt (a := 4 * backet.length) (by omega),
      Nat.mod_eq_of_lt (a := 4 * backet.length * backet.length) (by omega)]
  rw [hsize] at hplaced hl
  refine ⟨?_, hplaced, hl⟩
  intro x hx y hy hxy heq
  have h1 := hplaced x hx
  rw [heq, hplaced y hy] at h1
  simp only [Option.some.injEq] at h1
  exact hxy h1.symm

theorem perfect_hash_invariant_witness :
    ([0, 1] : List Int) ≠ [] ∧ ([0, 1] : List Int).Nodup ∧
    MakeSecondLevelHashTable {} [(16, 3), (1, 0)] [0, 1] = some (exampleBacketTable, []) ∧
    (∀ x ∈ ([0, 1] : List Int), ∀ y ∈ ([0, 1] : List Int), x ≠ y →
      exampleBacketTable.hash_function_.GetElementHash x % (4 * 2 * 2)
        ≠ exampleBacketTable.hash_function_.GetElementHash y % (4 * 2 * 2)) ∧
    (∀ x ∈ ([0, 1] : List Int),
      exampleBacketTable.hash_table_second_level_[
        exampleBacketTable.hash_function_.GetElementHash x % (4 * 2 * 2)]? = some (some x)) ∧
    exampleBacketTable.hash_table_second_level_.length = 4 * 2 * 2 :=
  ⟨by decide, by decide, by decide,
    perfect_hash_invariant {} exampleBacketTable [(16, 3), (1, 0)] [] [0, 1]
      (by decide) (by decide) (by decide)⟩

/-- C10 (the code at the failing input): on the bucket `{0, 1}` the candidate `(16, 3)` sends
both elements to slot `3` and is rejected, but the pass returns the table with `0` still in
slot `3`; the next candidate `(1, 0)` is tried against that table, and the table finally kept
has slot `3` occupied although the accepted function sends `0` to slot `0` and `1` to
slot `1`.  `Initialize({0, 1})` reaches this build when the first-level function is
`(2, 0)`. -/
theorem rejected_candidate_leaves_trace :
    SplitedIntoBacketsWithCollisions
      { hash_function_ := coefficientsOf (16, 3),
        hash_table_second_level_ := List.replicate 16 none } [0, 1]
      = some (true, { hash_function_ := coefficientsOf (16, 3),
                      hash_table_second_level_ := (List.replicate 16 none).set 3 (some 0) }) ∧
    construct [(16, 3), (1, 0)] [0, 1] = some (exampleBacketTable, []) ∧
    FixedSet.Initialize {} [0, 1] [(2, 0), (16, 3), (1, 0)]
      = some ({ hash_function_first_level_ := ⟨2, 0⟩,
                hash_table_ := [exampleBacketTable, {}] }, []) ∧
    exampleBacketTable.hash_table_second_level_[3]? = some (some 0) ∧
    exampleBacketTable.hash_function_.GetElementHash 0 % 16 = 0 ∧
    exampleBacketTable.hash_function_.GetElementHash 1 % 16 = 1 := by
  decide

end PolinomialHashTableSecondLevel

namespace FixedSet

open PolinomialHashTableSecondLevel

/-- C1: for every list `S` of pairwise distinct 32-bit integers, every earlier state of the
structure and every sequence of draws for which `Initialize(S)` completes, the built structure
answers `Contains(x) = true` exactly for the elements `x` of `S`, for every integer `x` (so for
every 32-bit one): no false positives and no false negatives. -/
theorem contains_iff_mem (s s1 : FixedSet) (S : List Int) (gen gen1 : Gen)
    (_hdistinct : S.Nodup) (_hrange : ∀ e ∈ S, isInt32 e)
    (hcompletes : Initialize s S gen = some (s1, gen1)) :
    ∀ x : Int, s1.Contains x = true ↔ x ∈ S :=
  fun x => Initialize_contains s s1 S gen gen1 hcompletes x

theorem contains_iff_mem_witness :
    exampleElements.Nodup ∧ (∀ e ∈ exampleElements, isInt32 e) ∧
    Initialize {} exampleElements exampleGen = some (exampleBuilt, []) ∧
    (∀ x : Int, exampleBuilt.Contains x = true ↔ x ∈ exampleElements) ∧
    exampleBuilt.Contains 0 = false ∧ exampleBuilt.Contains 2 = false ∧
    exampleBuilt.Contains (-4) = false :=
  ⟨by decide, by decide, by decide,
    contains_iff_mem {} exampleBuilt exampleElements exampleGen [] (by decide) (by decide)
      (by decide),
    by decide, by decide, by decide⟩

/-- C2 (the code at the failing input): on the list `{0, 2000000011}` of two distinct 32-bit
integers every function the sampler can produce gives both elements the same hash.  So
whichever first-level function is accepted, one bucket is `{0, 2000000011}`; a pass of
`SplitedIntoBacketsWithCollisions` over that bucket, started on an all-empty table of `4*2*2`
slots, answers `true` for every candidate; and `Initialize` does not complete whatever the
generator yields. -/
theorem Initialize_zero_prime_never_completes :
    (∀ draw : Nat × Nat,
      [0, 2000000011].filter (fun e => (coefficientsOf draw).GetElementHash e % 2
        = (coefficientsOf draw).GetElementHash 0 % 2) = [0, 2000000011]) ∧
    (∀ draw : Nat × Nat, ∃ t1, SplitedIntoBacketsWithCollisions
      { hash_function_ := coefficientsOf draw,
        hash_table_second_level_ := List.replicate (4 * 2 * 2) none } [0, 2000000011]
      = some (true, t1)) ∧
    (∀ (s : FixedSet) (gen : Gen), Initialize s [0, 2000000011] gen = none) := by
  refine ⟨?_, ?_, ?_⟩
  · intro draw
    have hsame := GetElementHash_zero_eq_prime (coefficientsOf draw)
      (coefficientsOf_first_lt draw) (coefficientsOf_second_lt draw)
    simp [List.filter_cons, hsame]
  · intro draw
    have hsame := GetElementHash_zero_eq_prime (coefficientsOf draw)
      (coefficientsOf_first_lt draw) (coefficientsOf_second_lt draw)
    have hlt : (coefficientsOf draw).GetElementHash 0 % 16 < 16 := Nat.mod_lt _ (by decide)
    have hsize : second_level_hashtable_size ([0, 2000000011] : List Int).length = 16 := by
      decide
    have hfalse : CollisionAppeared
        { hash_function_ := coefficientsOf draw,
          hash_table_second_level_ := List.replicate 16 none } 0 16 = some false := by
      rw [collisionAppeared_false_iff]
      refine ⟨by decide, Or.inl ?_⟩
      unfold slotOf
      rw [List.getElem?_replicate, if_pos hlt]
    have htrue : CollisionAppeared
        { hash_function_ := coefficientsOf draw,
          hash_table_second_level_ := (List.replicate 16 none).set
            ((coefficientsOf draw).GetElementHash 0 % 16) (some 0) } 2000000011 16
        = some true := by
      rw [collisionAppeared_true_iff]
      refine ⟨by decide, 0, by decide, ?_⟩
      unfold slotOf
      simp only
      rw [← hsame, List.getElem?_set_self (by rw [List.length_replicate]; exact hlt)]
    refine ⟨{ hash_function_ := coefficientsOf draw,
              hash_table_second_level_ := (List.replicate 16 none).set
                ((coefficientsOf draw).GetElementHash 0 % 16) (some 0) }, ?_⟩
    unfold SplitedIntoBacketsWithCollisions
    rw [hsize]
    unfold placeElements
    simp only [hfalse]
    unfold placeElements
    simp only [htrue]
  · intro s gen
    exact Initialize_none_of_zero_prime s _ gen (by simp) (by simp)

/-- C7: `Contains(x)` is `false` for every `x` on a `FixedSet` on which `Initialize` was never
called; `Initialize` of the empty list, on a fresh structure or on any earlier one, completes
without drawing from the generator and leaves zero second-level tables, and afterwards
`Contains(x)` is `false` for every `x`. -/
theorem empty_set (s : FixedSet) (x : Int) (gen : Gen) :
    ({} : FixedSet).Contains x = false ∧
    (∃ s1, Initialize {} [] gen = some (s1, gen) ∧ s1.hash_table_ = [] ∧
      s1.Contains x = false) ∧
    (∃ s1, Initialize s [] gen = some (s1, gen) ∧ s1.hash_table_ = [] ∧
      s1.Contains x = false) :=
  ⟨rfl, ⟨{}, rfl, rfl, rfl⟩, ⟨{ s with hash_table_ := [] }, by simp [Initialize,
    MakeFirstLevelHashTable, resize], rfl, rfl⟩⟩

/-- C8: for every integer `e` and every sequence of draws `d1, d2, ...`, `Initialize([e])`
completes without a retry: it accepts the first function sampled at the first level (`d1`) and
the first function sampled at the second level (`d2`) and leaves the rest of the sequence
untouched; afterwards `Contains(x) = true` exactly for `x = e`.  For `e = 7` this gives
`Contains(7) = true`, `Contains(8) = false`, `Contains(-7) = false`. -/
theorem singleton (s : FixedSet) (e : Int) (d1 d2 : Nat × Nat) (gen : Gen) :
    ∃ s1 t, Initialize s [e] (d1 :: d2 :: gen) = some (s1, gen) ∧
      s1.hash_function_first_level_ = coefficientsOf d1 ∧
      s1.hash_table_ = [t] ∧ t.hash_function_ = coefficientsOf d2 ∧
      (∀ x : Int, s1.Contains x = true ↔ x = e) ∧
      (e = 7 → s1.Contains 7 = true ∧ s1.Contains 8 = false ∧ s1.Contains (-7) = false) := by
  obtain ⟨s1, t, hi, h1, h2, h3⟩ := Initialize_singleton s e d1 d2 gen
  have hc : ∀ x : Int, s1.Contains x = true ↔ x = e := by
    intro x
    rw [Initialize_contains s s1 [e] _ gen hi x, List.mem_singleton]
  refine ⟨s1, t, hi, h1, h2, h3, hc, ?_⟩
  intro he
  subst he
  refine ⟨(hc 7).2 rfl, ?_, ?_⟩
  · rw [← Bool.not_eq_true, hc 8]
    decide
  · rw [← Bool.not_eq_true, hc (-7)]
    decide

end FixedSet

end FixedSetModel

namespace FixedSetModel

namespace FixedSet

open PolinomialHashTableSecondLevel

/-- C4 (amended): whenever `Initialize` completes on a non-empty list of `n` elements (fewer
than `2^32` of them, or pairwise distinct 32-bit integers as the interface requires), the vector
`hash_table_first_level` it fills after accepting the first-level function `h1` has `n`
buckets, bucket `i` holds exactly the elements `e` with `h1(e) mod n = i`, the sizes counted by
`SplitIntoBackets` are exactly the lengths of these buckets, and the sum over all buckets of
the squared bucket size is strictly less than `4*n`. -/
theorem balance_invariant (s s1 : FixedSet) (elements : List Int) (gen gen1 : Gen)
    (hne : elements ≠ [])
    (hfit : elements.length < u32 ∨ (elements.Nodup ∧ ∀ e ∈ elements, isInt32 e))
    (h : Initialize s elements gen = some (s1, gen1)) :
    ∃ s2 gen2,
      sampleFirstLevel elements
        { s with hash_table_ := resize s.hash_table_ elements.length {} } gen
        = some (s2, gen2) ∧
      s1.hash_function_first_level_ = s2.hash_function_first_level_ ∧
      (fillFirstLevel s2 elements).length = elements.length ∧
      (∀ i, i < elements.length →
        (fillFirstLevel s2 elements)[i]?
          = some (elements.filter (fun e =>
              s1.hash_function_first_level_.GetElementHash e % elements.length = i))) ∧
      SplitIntoBackets s2 elements = (fillFirstLevel s2 elements).map List.length ∧
      ((fillFirstLevel s2 elements).map (fun backet => backet.length * backet.length)).sum
        < 4 * elements.length := by
  have hn := length_lt_of_Initialize s s1 elements gen gen1 h hfit
  obtain ⟨s2, gen2, hash_table, hs, _, hlen, rfl⟩ := Initialize_steps s _ elements gen gen1 hne h
  obtain ⟨_, _, hbal⟩ := sampleFirstLevel_spec _ _ _ _ _ hs
  have hmap := SplitIntoBackets_eq_map_length s2 elements hlen
  refine ⟨s2, gen2, hs, rfl, length_fillFirstLevel s2 elements, ?_, hmap, ?_⟩
  · intro i hi
    exact fillFirstLevel_getElem? s2 elements i hlen hi
  · have h1 := balance_of_accepted s2 elements hn hbal
    rw [hmap, List.map_map] at h1
    exact h1

theorem balance_invariant_witness :
    exampleElements ≠ [] ∧
    (exampleElements.length < u32 ∨
      (exampleElements.Nodup ∧ ∀ e ∈ exampleElements, isInt32 e)) ∧
    Initialize {} exampleElements exampleGen = some (exampleBuilt, []) ∧
    ∃ s2 gen2,
      sampleFirstLevel exampleElements
        { ({} : FixedSet) with
          hash_table_ := resize ({} : FixedSet).hash_table_ exampleElements.length {} }
        exampleGen = some (s2, gen2) ∧
      exampleBuilt.hash_function_first_level_ = s2.hash_function_first_level_ ∧
      (fillFirstLevel s2 exampleElements).length = exampleElements.length ∧
      (∀ i, i < exampleElements.length →
        (fillFirstLevel s2 exampleElements)[i]?
          = some (exampleElements.filter (fun e =>
              exampleBuilt.hash_function_first_level_.GetElementHash e
                % exampleElements.length = i))) ∧
      SplitIntoBackets s2 exampleElements
        = (fillFirstLevel s2 exampleElements).map List.length ∧
      ((fillFirstLevel s2 exampleElements).map
        (fun backet => backet.length * backet.length)).sum < 4 * exampleElements.length :=
  ⟨by decide, Or.inl (by decide), by decide,
    balance_invariant {} exampleBuilt exampleElements exampleGen [] (by decide)
      (Or.inl (by decide)) (by decide)⟩

/-- C9 (amended): after `Initialize` completes on a list of `n` elements (fewer than `2^32` of
them, or pairwise distinct 32-bit integers as the interface requires), the structure holds
exactly `n`
second-level tables, and the table at index `i` has exactly `4*m_i*m_i` slots, where `m_i` is
the number of input elements whose first-level hash modulo `n` is `i`; a table for an empty
bucket has `0` slots and its `Contains` is `false` for every query. -/
theorem built_shape (s s1 : FixedSet) (elements : List Int) (gen gen1 : Gen)
    (hfit : elements.length < u32 ∨ (elements.Nodup ∧ ∀ e ∈ elements, isInt32 e))
    (h : Initialize s elements gen = some (s1, gen1)) :
    s1.hash_table_.length = elements.length ∧
    ∀ i, i < elements.length → ∃ t, s1.hash_table_[i]? = some t ∧
      t.hash_table_second_level_.length
        = 4 * (elements.filter (fun e =>
              s1.hash_function_first_level_.GetElementHash e % elements.length = i)).length
            * (elements.filter (fun e =>
              s1.hash_function_first_level_.GetElementHash e % elements.length = i)).length ∧
      ((elements.filter (fun e =>
          s1.hash_function_first_level_.GetElementHash e % elements.length = i)).length = 0 →
        t.hash_table_second_level_.length = 0 ∧ ∀ x : Int, t.Contains x = false) := by
  by_cases hne : elements = []
  · subst hne
    simp only [Initialize, MakeFirstLevelHashTable, List.isEmpty_nil, if_true,
      Option.some.injEq, Prod.mk.injEq] at h
    obtain ⟨rfl, _⟩ := h
    refine ⟨by simp [resize], ?_⟩
    intro i hi
    simp at hi
  · have hn := length_lt_of_Initialize s s1 elements gen gen1 h hfit
    obtain ⟨_, hlen, hbal, htab⟩ := Initialize_spec s s1 elements gen gen1 hne h
    refine ⟨hlen, ?_⟩
    intro i hi
    obtain ⟨t, g, g1, hc, ht⟩ := htab i hi
    refine ⟨t, ht, ?_⟩
    have hsq : (backetOf s1.hash_function_first_level_ elements i).length
        * (backetOf s1.hash_function_first_level_ elements i).length
        < 4 * elements.length := by
      have h1 := balance_of_accepted s1 elements hn hbal
      have h2 := square_le_sum_squares (SplitIntoBackets s1 elements) _
        (List.getElem?_mem (SplitIntoBackets_getElem? s1 elements i hi))
      omega
    have hlength : t.hash_table_second_level_.length
        = 4 * (backetOf s1.hash_function_first_level_ elements i).length
            * (backetOf s1.hash_function_first_level_ elements i).length := by
      by_cases hb : backetOf s1.hash_function_first_level_ elements i = []
      · rw [hb] at hc ⊢
        simp only [construct, MakeSecondLevelHashTable, List.isEmpty_nil, if_true,
          Option.some.injEq, Prod.mk.injEq] at hc
        obtain ⟨rfl, _⟩ := hc
        rfl
      · obtain ⟨_, _, hl, _⟩ := MakeSecondLevelHashTable_spec _ _ _ _ _ hb hc
        rw [hl, second_level_hashtable_size_of_balanced elements.length _ hn hsq]
    refine ⟨hlength, ?_⟩
    intro hzero
    unfold backetOf at hlength
    rw [hzero] at hlength
    refine ⟨hlength, ?_⟩
    intro x
    have hnil : t.hash_table_second_level_ = [] := List.length_eq_zero.1 hlength
    simp [PolinomialHashTableSecondLevel.Contains, hnil]

theorem built_shape_witness :
    (exampleElements.length < u32 ∨
      (exampleElements.Nodup ∧ ∀ e ∈ exampleElements, isInt32 e)) ∧
    Initialize {} exampleElements exampleGen = some (exampleBuilt, []) ∧
    exampleBuilt.hash_table_.length = exampleElements.length ∧
    ∀ i, i < exampleElements.length → ∃ t, exampleBuilt.hash_table_[i]? = some t ∧
      t.hash_table_second_level_.length
        = 4 * (exampleElements.filter (fun e =>
              exampleBuilt.hash_function_first_level_.GetElementHash e
                % exampleElements.length = i)).length
            * (exampleElements.filter (fun e =>
              exampleBuilt.hash_function_first_level_.GetElementHash e
                % exampleElements.length = i)).length ∧
      ((exampleElements.filter (fun e =>
          exampleBuilt.hash_function_first_level_.GetElementHash e
            % exampleElements.length = i)).length = 0 →
        t.hash_table_second_level_.length = 0 ∧ ∀ x : Int, t.Contains x = false) :=
  ⟨Or.inr ⟨by decide, by decide⟩, by decide,
    built_shape {} exampleBuilt exampleElements exampleGen []
      (Or.inr ⟨by decide, by decide⟩) (by decide)⟩

end FixedSet

end FixedSetModel

namespace FixedSetModel

namespace FixedSet

open PolinomialHashTableSecondLevel (construct second_level_hashtable_size
  MakeSecondLevelHashTable_spec)

/-! ## The partition, the total size and a second `Initialize` -/

theorem sum_map_ite_range (c v : Nat) :
    ∀ n : Nat, ((List.range n).map (fun i => if c = i then v else 0)).sum
      = if c < n then v else 0 := by
  intro n
  induction n with
  | zero => simp
  | succ n ih =>
    rw [List.range_succ, List.map_append, List.sum_append, ih]
    simp only [List.map_cons, List.map_nil, List.sum_cons, List.sum_nil, Nat.add_zero]
    by_cases h1 : c < n
    · rw [if_pos h1, if_neg (by omega), if_pos (by omega)]
      rfl
    · by_cases h2 : c = n
      · rw [if_neg h1, if_pos h2, if_pos (by omega)]
        omega
      · rw [if_neg h1, if_neg h2, if_neg (by omega)]

theorem count_filter_eq (f : Int → Nat) (l : List Int) (a : Int) (i : Nat) :
    List.count a (l.filter (fun e => f e = i)) = if f a = i then List.count a l else 0 := by
  by_cases h : f a = i
  · rw [if_pos h, List.count_filter (by simpa using h)]
  · rw [if_neg h]
    apply List.count_eq_zero_of_not_mem
    intro hm
    have := (List.mem_filter.1 hm).2
    simp only [decide_eq_true_eq] at this
    exact h this

/-- The buckets of a list, concatenated, are a permutation of the list. -/
theorem flatten_buckets_perm (f : Int → Nat) (n : Nat) (l : List Int)
    (hf : ∀ e ∈ l, f e < n) :
    ((List.range n).map (fun i => l.filter (fun e => f e = i))).flatten.Perm l := by
  rw [List.perm_iff_count]
  intro a
  rw [List.count_flatten, List.map_map]
  have hfun : (List.count a ∘ fun i => l.filter (fun e => f e = i))
      = fun i => if f a = i then List.count a l else 0 := by
    funext i
    exact count_filter_eq f l a i
  rw [hfun, sum_map_ite_range]
  by_cases ha : a ∈ l
  · rw [if_pos (hf a ha)]
  · rw [List.count_eq_zero_of_not_mem ha]
    split <;> rfl

/-- The physical buckets are the buckets `backetOf` of the indices `0, ..., n-1`. -/
theorem fillFirstLevel_eq_map (s : FixedSet) (elements : List Int)
    (hlen : s.hash_table_.length = elements.length) :
    fillFirstLevel s elements
      = (List.range elements.length).map
          (fun i => backetOf s.hash_function_first_level_ elements i) := by
  apply List.ext_getElem?
  intro i
  by_cases hi : i < elements.length
  · rw [fillFirstLevel_getElem? s elements i hlen hi, List.getElem?_map,
      List.getElem?_range hi]
    rfl
  · rw [List.getElem?_eq_none (by rw [length_fillFirstLevel]; omega),
      List.getElem?_eq_none (by rw [List.length_map, List.length_range]; omega)]

/-- The first retry loop does not look at the tables: it carries them along. -/
theorem sampleFirstLevel_congr (elements : List Int) :
    ∀ (gen : Gen) (s t : FixedSet),
      sampleFirstLevel elements s gen
        = (sampleFirstLevel elements t gen).map
            (fun r => ({ r.1 with hash_table_ := s.hash_table_ }, r.2)) := by
  intro gen
  induction gen with
  | nil => intro s t; rfl
  | cons draw gen ih =>
    intro s t
    unfold sampleFirstLevel
    simp only
    have hsplit : SplitIntoBackets
        { s with hash_function_first_level_ := coefficientsOf draw } elements
        = SplitIntoBackets
            { t with hash_function_first_level_ := coefficientsOf draw } elements := rfl
    rw [hsplit]
    split
    · rw [ih _ { t with hash_function_first_level_ := coefficientsOf draw }]
    · rfl

/-- The last loop of `MakeFirstLevelHashTable` overwrites the entries it visits: started on two
vectors of the same length it consumes the same draws and leaves the same entries wherever it
wrote or the vectors agreed before. -/
theorem buildTables_congr (backets : List (List Int)) :
    ∀ (i_index : Nat) (hash_table hash_table1 : List PolinomialHashTableSecondLevel)
      (gen : Gen), hash_table.length = hash_table1.length →
      (buildTables backets i_index hash_table gen = none ∧
        buildTables backets i_index hash_table1 gen = none) ∨
      ∃ r r1 gen1, buildTables backets i_index hash_table gen = some (r, gen1) ∧
        buildTables backets i_index hash_table1 gen = some (r1, gen1) ∧
        r.length = r1.length ∧
        ∀ j, (i_index ≤ j ∧ j < i_index + backets.length) ∨ hash_table[j]? = hash_table1[j]? →
          r[j]? = r1[j]? := by
  induction backets with
  | nil =>
    intro i_index hash_table hash_table1 gen hlen
    right
    refine ⟨hash_table, hash_table1, gen, rfl, rfl, hlen, ?_⟩
    intro j hj
    rcases hj with ⟨h1, h2⟩ | h
    · simp only [List.length_nil, Nat.add_zero] at h2
      omega
    · exact h
  | cons backet rest ih =>
    intro i_index hash_table hash_table1 gen hlen
    unfold buildTables
    cases hc : construct gen backet with
    | none => exact Or.inl ⟨rfl, rfl⟩
    | some c =>
      obtain ⟨t, gen2⟩ := c
      simp only
      rcases ih (i_index + 1) (hash_table.set i_index t) (hash_table1.set i_index t) gen2
        (by rw [List.length_set, List.length_set, hlen]) with hnone | ⟨r, r1, gen1, h1, h2, h3, h4⟩
      · exact Or.inl hnone
      · right
        refine ⟨r, r1, gen1, h1, h2, h3, ?_⟩
        intro j hj
        apply h4
        by_cases hji : j = i_index
        · subst hji
          right
          rw [List.getElem?_set, List.getElem?_set, hlen, if_pos rfl, if_pos rfl]
        · rcases hj with ⟨h5, h6⟩ | h
          · left
            simp only [List.length_cons] at h6
            omega
          · right
            rw [List.getElem?_set_ne (Ne.symm hji), List.getElem?_set_ne (Ne.symm hji)]
            exact h

/-- `Initialize` on a non-empty list does not depend on the earlier state of the structure. -/
theorem Initialize_eq_fresh (s : FixedSet) (elements : List Int) (gen : Gen)
    (hne : elements ≠ []) : Initialize s elements gen = Initialize {} elements gen := by
  unfold Initialize MakeFirstLevelHashTable
  have he : elements.isEmpty = false := by
    cases elements with
    | nil => exact absurd rfl hne
    | cons a l => rfl
  simp only [he, Bool.false_eq_true, if_false]
  rw [sampleFirstLevel_congr elements gen
    { s with hash_table_ := resize s.hash_table_ elements.length {} }
    { ({} : FixedSet) with
      hash_table_ := resize ({} : FixedSet).hash_table_ elements.length {} }]
  cases hs : sampleFirstLevel elements
      { ({} : FixedSet) with
        hash_table_ := resize ({} : FixedSet).hash_table_ elements.length {} } gen with
  | none => rfl
  | some r =>
    obtain ⟨s2, gen2⟩ := r
    obtain ⟨hht, _, _⟩ := sampleFirstLevel_spec _ _ _ _ _ hs
    simp only at hht
    have hlen2 : s2.hash_table_.length = elements.length := by
      rw [hht, PolinomialHashTableSecondLevel.length_resize]
    simp only [Option.map_some']
    have hfill : fillFirstLevel
        { s2 with hash_table_ := resize s.hash_table_ elements.length {} } elements
        = fillFirstLevel s2 elements := by
      unfold fillFirstLevel
      simp only [PolinomialHashTableSecondLevel.length_resize, hlen2]
    rw [hfill]
    rcases buildTables_congr (fillFirstLevel s2 elements) 0
        (resize s.hash_table_ elements.length {}) s2.hash_table_ gen2
        (by rw [PolinomialHashTableSecondLevel.length_resize, hlen2])
      with ⟨h1, h2⟩ | ⟨r, r1, gen1, h1, h2, h3, h4⟩
    · simp only [h1, h2]
    · simp only [h1, h2]
      have hr : r = r1 := by
        apply List.ext_getElem?
        intro j
        apply h4
        by_cases hj : j < elements.length
        · left
          rw [length_fillFirstLevel]
          omega
        · right
          rw [List.getElem?_eq_none (by
              rw [PolinomialHashTableSecondLevel.length_resize]; omega),
            List.getElem?_eq_none (by rw [hlen2]; omega)]
      rw [hr]

end FixedSet

end FixedSetModel

namespace FixedSetModel

/-! ## Safety of indices and moduli -/

namespace PolinomialHashTableSecondLevel

/-- A pass over a table that has as many slots as the non-zero modulus always answers, and
keeps the number of slots. -/
theorem placeElements_defined (size : Nat) (hsize : size ≠ 0) (backet : List Int) :
    ∀ t : PolinomialHashTableSecondLevel, t.hash_table_second_level_.length = size →
      ∃ answer t1, placeElements size backet t = some (answer, t1) ∧
        t1.hash_table_second_level_.length = size := by
  induction backet with
  | nil => intro t ht; exact ⟨false, t, rfl, ht⟩
  | cons element rest ih =>
    intro t ht
    have hlt : t.hash_function_.GetElementHash element % size
        < t.hash_table_second_level_.length := by
      rw [ht]
      exact Nat.mod_lt _ (Nat.pos_of_ne_zero hsize)
    unfold placeElements CollisionAppeared
    rw [if_neg hsize, List.getElem?_eq_getElem hlt]
    cases hslot : t.hash_table_second_level_[t.hash_function_.GetElementHash element % size] with
    | none =>
      simp only
      exact ih _ (by simp only [List.length_set]; exact ht)
    | some stored =>
      simp only
      by_cases hst : stored = element
      · simp only [hst, ne_eq, not_true_eq_false, decide_False]
        exact ih _ (by simp only [List.length_set]; exact ht)
      · simp only [ne_eq, hst, not_false_eq_true, decide_True]
        exact ⟨true, t, rfl, ht⟩

/-- With a modulus `0` the pass over a non-empty bucket is undefined. -/
theorem construct_none_of_size_zero (backet : List Int) (draw : Nat × Nat) (gen : Gen)
    (hne : backet ≠ []) (hsize : second_level_hashtable_size backet.length = 0) :
    construct (draw :: gen) backet = none := by
  cases backet with
  | nil => exact absurd rfl hne
  | cons e rest =>
    unfold construct MakeSecondLevelHashTable
    simp only [List.isEmpty_cons, Bool.false_eq_true, if_false]
    unfold retryLoop SplitedIntoBacketsWithCollisions
    rw [hsize]
    unfold placeElements CollisionAppeared
    simp

end PolinomialHashTableSecondLevel

namespace FixedSet

open PolinomialHashTableSecondLevel (construct second_level_hashtable_size
  construct_none_of_size_zero)

/-- The last loop of `MakeFirstLevelHashTable` does not complete when, after empty buckets
only, it reaches a bucket whose table cannot be constructed. -/
theorem buildTables_none (j : Nat) :
    ∀ (backets : List (List Int)) (i_index : Nat)
      (hash_table : List PolinomialHashTableSecondLevel) (gen : Gen) (backet : List Int),
      (∀ k, k < j → backets[k]? = some []) → backets[j]? = some backet →
      construct gen backet = none →
      buildTables backets i_index hash_table gen = none := by
  induction j with
  | zero =>
    intro backets i_index hash_table gen backet _ hj hc
    cases backets with
    | nil => simp at hj
    | cons b rest =>
      simp only [List.getElem?_cons_zero, Option.some.injEq] at hj
      subst hj
      unfold buildTables
      rw [hc]
  | succ j ih =>
    intro backets i_index hash_table gen backet hempty hj hc
    cases backets with
    | nil => simp at hj
    | cons b rest =>
      have hb : b = [] := by
        have := hempty 0 (Nat.succ_pos j)
        simpa using this
      subst hb
      unfold buildTables
      have hnil : construct gen [] = some ({}, gen) := rfl
      rw [hnil]
      simp only
      apply ih rest _ _ gen backet
      · intro k hk
        have := hempty (k + 1) (by omega)
        simpa using this
      · simpa using hj
      · exact hc

end FixedSet

end FixedSetModel

namespace FixedSetModel

/-! ## Lists in which one key is repeated -/

namespace PolinomialHashTableSecondLevel

/-- A pass over copies of one key places the key once and finds it again in its slot. -/
theorem placeElements_replicate (size : Nat) (hsize : size ≠ 0) (x : Int) (k : Nat) :
    ∀ t : PolinomialHashTableSecondLevel,
      (t.hash_table_second_level_[t.hash_function_.GetElementHash x % size]? = some none ∨
        t.hash_table_second_level_[t.hash_function_.GetElementHash x % size]?
          = some (some x)) →
      placeElements size (List.replicate (k + 1) x) t
        = some (false, PolinomialHashTableSecondLevel.mk t.hash_function_
            (t.hash_table_second_level_.set (t.hash_function_.GetElementHash x % size)
              (some x))) := by
  induction k with
  | zero =>
    intro t hslot
    have hfalse := (collisionAppeared_false_iff t x size).2 ⟨hsize, hslot⟩
    simp only [List.replicate, placeElements, hfalse]
  | succ k ih =>
    intro t hslot
    have hfalse := (collisionAppeared_false_iff t x size).2 ⟨hsize, hslot⟩
    have hlt : t.hash_function_.GetElementHash x % size
        < t.hash_table_second_level_.length := by
      rcases hslot with h | h <;> exact (List.getElem?_eq_some_iff.1 h).1
    rw [List.replicate_succ]
    unfold placeElements
    simp only [hfalse]
    rw [ih _ (Or.inr (by simp only; rw [List.getElem?_set_self hlt]))]
    simp only [List.set_set]

/-- The build of a bucket of copies of one key accepts the first candidate. -/
theorem construct_replicate (x : Int) (k : Nat) (draw : Nat × Nat) (gen : Gen)
    (hsize : second_level_hashtable_size (k + 1) ≠ 0) :
    ∃ t, construct (draw :: gen) (List.replicate (k + 1) x) = some (t, gen) := by
  have hlen : (List.replicate (k + 1) x).length = k + 1 := List.length_replicate _ _
  unfold construct MakeSecondLevelHashTable
  have he : (List.replicate (k + 1) x).isEmpty = false := rfl
  simp only [he, Bool.false_eq_true, if_false]
  rw [resize_nil, resize_replicate, hlen]
  unfold retryLoop SplitedIntoBacketsWithCollisions
  rw [hlen, placeElements_replicate _ hsize x k _ (Or.inl (by
    simp only
    rw [List.getElem?_replicate, if_pos (Nat.mod_lt _ (Nat.pos_of_ne_zero hsize))]))]
  exact ⟨_, rfl⟩

end PolinomialHashTableSecondLevel

namespace FixedSet

open PolinomialHashTableSecondLevel (construct second_level_hashtable_size
  construct_replicate MakeSecondLevelHashTable_spec length_resize)

/-- When every element has the same hash `v`, bucket `v mod n` is the whole list, the other
buckets are empty and the counted sizes have the sum of squares `n * n`. -/
theorem single_bucket (s : FixedSet) (elements : List Int) (v : Nat) (hne : elements ≠ [])
    (hhash : ∀ e ∈ elements, s.hash_function_first_level_.GetElementHash e = v) :
    backetOf s.hash_function_first_level_ elements (v % elements.length) = elements ∧
    (∀ i, i ≠ v % elements.length →
      backetOf s.hash_function_first_level_ elements i = []) ∧
    ((SplitIntoBackets s elements).map (fun size => size * size)).sum
      = elements.length * elements.length := by
  have hall : backetOf s.hash_function_first_level_ elements (v % elements.length)
      = elements := by
    unfold backetOf
    rw [List.filter_eq_self]
    intro e he
    rw [hhash e he]
    exact decide_eq_true rfl
  refine ⟨hall, ?_, ?_⟩
  · intro i hi
    unfold backetOf
    rw [List.filter_eq_nil_iff]
    intro e he
    rw [hhash e he]
    simpa using (Ne.symm hi)
  · have hpos : 0 < elements.length := List.length_pos.2 hne
    have hcount := SplitIntoBackets_getElem? s elements (v % elements.length)
      (Nat.mod_lt _ hpos)
    rw [hall] at hcount
    have h1 := square_le_sum_squares _ _ (List.getElem?_mem hcount)
    have h2 := sum_squares_le_square_sum (SplitIntoBackets s elements)
    rw [sum_SplitIntoBackets] at h2
    exact Nat.le_antisymm h2 h1

/-- The last loop of `MakeFirstLevelHashTable` completes on empty buckets without a draw. -/
theorem buildTables_of_empty (backets : List (List Int)) :
    ∀ (i_index : Nat) (hash_table : List PolinomialHashTableSecondLevel) (gen : Gen),
      (∀ b ∈ backets, b = []) →
      ∃ hash_table1, buildTables backets i_index hash_table gen = some (hash_table1, gen) := by
  induction backets with
  | nil => intro i_index hash_table gen _; exact ⟨hash_table, rfl⟩
  | cons b rest ih =>
    intro i_index hash_table gen h
    have hb : b = [] := h b (List.mem_cons_self _ _)
    subst hb
    unfold buildTables
    have hnil : construct gen [] = some ({}, gen) := rfl
    rw [hnil]
    exact ih _ _ gen (fun b hb => h b (List.mem_cons_of_mem _ hb))

/-- The last loop of `MakeFirstLevelHashTable` completes when the only non-empty bucket can be
built. -/
theorem buildTables_single (j : Nat) :
    ∀ (backets : List (List Int)) (i_index : Nat)
      (hash_table : List PolinomialHashTableSecondLevel) (gen gen1 : Gen) (backet : List Int)
      (t : PolinomialHashTableSecondLevel),
      (∀ k b, k ≠ j → backets[k]? = some b → b = []) → backets[j]? = some backet →
      construct gen backet = some (t, gen1) →
      ∃ hash_table1, buildTables backets i_index hash_table gen = some (hash_table1, gen1) := by
  induction j with
  | zero =>
    intro backets i_index hash_table gen gen1 backet t hempty hj hc
    cases backets with
    | nil => simp at hj
    | cons b rest =>
      simp only [List.getElem?_cons_zero, Option.some.injEq] at hj
      subst hj
      unfold buildTables
      rw [hc]
      simp only
      apply buildTables_of_empty
      intro b' hb'
      obtain ⟨i, hi⟩ := List.mem_iff_getElem?.1 hb'
      exact hempty (i + 1) b' (by omega) (by simpa using hi)
  | succ j ih =>
    intro backets i_index hash_table gen gen1 backet t hempty hj hc
    cases backets with
    | nil => simp at hj
    | cons b rest =>
      have hb : b = [] := hempty 0 b (by omega) (by simp)
      subst hb
      unfold buildTables
      have hnil : construct gen [] = some ({}, gen) := rfl
      rw [hnil]
      simp only
      apply ih rest _ _ gen gen1 backet t
      · intro k b' hk hb'
        exact hempty (k + 1) b' (by omega) (by simpa using hb')
      · simpa using hj
      · exact hc

/-- On `k + 1` copies of one key, `Initialize` completes after two draws as soon as the wrapped
square of the length passes the balance test and the wrapped table size is not zero. -/
theorem Initialize_replicate (s : FixedSet) (x : Int) (k : Nat) (d1 d2 : Nat × Nat)
    (gen : Gen) (hacc : (k + 1) * (k + 1) % u64 < kConstForBacketSize * (k + 1) % u64)
    (hsize : second_level_hashtable_size (k + 1) ≠ 0) :
    sampleFirstLevel (List.replicate (k + 1) x)
      { s with hash_table_ := resize s.hash_table_ (List.replicate (k + 1) x).length {} }
      (d1 :: d2 :: gen)
      = some (FixedSet.mk (coefficientsOf d1)
          (resize s.hash_table_ (List.replicate (k + 1) x).length {}), d2 :: gen) ∧
    ∃ s1, Initialize s (List.replicate (k + 1) x) (d1 :: d2 :: gen) = some (s1, gen) := by
  have hlen : (List.replicate (k + 1) x).length = k + 1 := List.length_replicate _ _
  have hne : List.replicate (k + 1) x ≠ [] := by
    intro h
    rw [h] at hlen
    simp at hlen
  have hhash : ∀ e ∈ List.replicate (k + 1) x,
      (coefficientsOf d1).GetElementHash e = (coefficientsOf d1).GetElementHash x := by
    intro e he
    rw [List.eq_of_mem_replicate he]
  obtain ⟨hall, hnil, hsum⟩ := single_bucket
    (FixedSet.mk (coefficientsOf d1) (resize s.hash_table_ (List.replicate (k + 1) x).length {}))
    (List.replicate (k + 1) x) _ hne hhash
  have hsample : sampleFirstLevel (List.replicate (k + 1) x)
      { s with hash_table_ := resize s.hash_table_ (List.replicate (k + 1) x).length {} }
      (d1 :: d2 :: gen)
      = some (FixedSet.mk (coefficientsOf d1)
          (resize s.hash_table_ (List.replicate (k + 1) x).length {}), d2 :: gen) := by
    unfold sampleFirstLevel
    simp only
    rw [CountSumSquaredBacketSizes_eq, hsum, hlen, if_neg (Nat.not_le.2 hacc)]
  refine ⟨hsample, ?_⟩
  have hlen2 : (resize s.hash_table_ (List.replicate (k + 1) x).length
      ({} : PolinomialHashTableSecondLevel)).length = (List.replicate (k + 1) x).length :=
    length_resize _ _ _
  have hget := fun i hi => fillFirstLevel_getElem?
    (FixedSet.mk (coefficientsOf d1) (resize s.hash_table_ (List.replicate (k + 1) x).length {}))
    (List.replicate (k + 1) x) i hlen2 hi
  have hpos : 0 < (List.replicate (k + 1) x).length := by rw [hlen]; omega
  obtain ⟨t, ht⟩ := construct_replicate x k d2 gen hsize
  obtain ⟨hash_table1, hbuild⟩ := buildTables_single
    ((coefficientsOf d1).GetElementHash x % (List.replicate (k + 1) x).length)
    (fillFirstLevel (FixedSet.mk (coefficientsOf d1)
      (resize s.hash_table_ (List.replicate (k + 1) x).length {})) (List.replicate (k + 1) x))
    0 (resize s.hash_table_ (List.replicate (k + 1) x).length {}) (d2 :: gen) gen
    (List.replicate (k + 1) x) t
    (by
      intro i b hi hb
      have hilt : i < (List.replicate (k + 1) x).length := by
        have := (List.getElem?_eq_some_iff.1 hb).1
        rwa [length_fillFirstLevel] at this
      rw [hget i hilt] at hb
      simp only [Option.some.injEq] at hb
      rw [← hb]
      exact hnil i hi)
    (by rw [hget _ (Nat.mod_lt _ hpos)]; exact congrArg some hall)
    ht
  refine ⟨FixedSet.mk (coefficientsOf d1) hash_table1, ?_⟩
  unfold Initialize MakeFirstLevelHashTable
  have he : (List.replicate (k + 1) x).isEmpty = false := rfl
  simp only [he, Bool.false_eq_true, if_false]
  rw [hsample]
  simp only
  rw [hbuild]

end FixedSet

end FixedSetModel

namespace FixedSetModel

/-! ## The claims, continued -/

/-- C16: for all coefficients `a`, `b` in `[0, p-1]` (`p = 2000000011`) and every 32-bit integer
`x` with `p <= x <= 2147483647`, the 64-bit value `a*x + b` does not wrap and
`GetElementHash(x) = GetElementHash(x - p)`; in particular `0` and `2000000011` receive the
same hash. -/
theorem GetElementHash_sub_prime (a b : Nat) (x : Int) (ha : a < kBigPrime)
    (hb : b < kBigPrime) (hlow : 2000000011 ≤ x) (hhigh : x ≤ 2147483647) :
    a * x.toNat + b < u64 ∧
    (LinearHashFunction.mk a b).GetElementHash x
      = (LinearHashFunction.mk a b).GetElementHash (x - 2000000011) ∧
    (LinearHashFunction.mk a b).GetElementHash 2000000011
      = (LinearHashFunction.mk a b).GetElementHash 0 := by
  have ha1 : (LinearHashFunction.mk a b).first_coeff_ < u32 := lt_trans ha kBigPrime_lt_u32
  have hb1 : (LinearHashFunction.mk a b).second_coeff_ < u32 := lt_trans hb kBigPrime_lt_u32
  refine ⟨?_, ?_, (GetElementHash_zero_eq_prime _ ha1 hb1).symm⟩
  · simp only [kBigPrime, u64] at *
    have hx : x.toNat < 2147483648 := by omega
    have hprod : a * x.toNat < 2000000011 * 2147483648 :=
      calc a * x.toNat ≤ 2000000011 * x.toNat := Nat.mul_le_mul_right _ (by omega)
        _ < 2000000011 * 2147483648 := Nat.mul_lt_mul_of_pos_left hx (by omega)
    omega
  · rw [GetElementHash_of_nonneg _ x ha1 hb1 (by omega) hhigh,
      GetElementHash_of_nonneg _ (x - 2000000011) ha1 hb1 (by omega) (by omega)]
    have hx : x.toNat = (x - 2000000011).toNat + kBigPrime := by
      simp only [kBigPrime]
      omega
    rw [hx, Nat.mul_add, Nat.add_right_comm, Nat.add_mul_mod_self_right]

theorem GetElementHash_sub_prime_witness :
    3 < kBigPrime ∧ 7 < kBigPrime ∧ (2000000011 : Int) ≤ 2147483647 ∧
    (2147483647 : Int) ≤ 2147483647 ∧
    (3 * (2147483647 : Int).toNat + 7 < u64 ∧
    (LinearHashFunction.mk 3 7).GetElementHash 2147483647
      = (LinearHashFunction.mk 3 7).GetElementHash (2147483647 - 2000000011) ∧
    (LinearHashFunction.mk 3 7).GetElementHash 2000000011
      = (LinearHashFunction.mk 3 7).GetElementHash 0) :=
  ⟨by decide, by decide, by decide, by decide,
    GetElementHash_sub_prime 3 7 2147483647 (by decide) (by decide) (by decide) (by decide)⟩

namespace PolinomialHashTableSecondLevel

/-- C12 (the code at the failing input): on the bucket `{0, 1}` (16 slots) with the candidates
`(16, 3)`, `(3, 0)`, `(1, 0)`: the first is rejected and leaves `0` in slot `3`; the second
sends `0` to slot `0` and `1` to slot `3`, so it has no collision on the bucket, yet
`SplitedIntoBacketsWithCollisions` answers `true` for it because slot `3` still holds `0`; the
function finally accepted is the third, not the first collision-free one.  `Initialize({0, 1})`
reaches this build when the first-level function is `(2, 0)`. -/
theorem collision_free_candidate_rejected :
    ([0, 1] : List Int).Nodup ∧
    SplitedIntoBacketsWithCollisions
      { hash_function_ := coefficientsOf (16, 3),
        hash_table_second_level_ := List.replicate 16 none } [0, 1]
      = some (true, { hash_function_ := coefficientsOf (16, 3),
                      hash_table_second_level_ := (List.replicate 16 none).set 3 (some 0) }) ∧
    (coefficientsOf (3, 0)).GetElementHash 0 % (4 * 2 * 2) = 0 ∧
    (coefficientsOf (3, 0)).GetElementHash 1 % (4 * 2 * 2) = 3 ∧
    SplitedIntoBacketsWithCollisions
      { hash_function_ := coefficientsOf (3, 0),
        hash_table_second_level_ := (List.replicate 16 none).set 3 (some 0) } [0, 1]
      = some (true, { hash_function_ := coefficientsOf (3, 0),
                      hash_table_second_level_ :=
                        ((List.replicate 16 none).set 3 (some 0)).set 0 (some 0) }) ∧
    construct [(16, 3), (3, 0), (1, 0)] [0, 1] = some (exampleBacketTable, []) ∧
    exampleBacketTable.hash_function_ = coefficientsOf (1, 0) ∧
    FixedSet.Initialize {} [0, 1] [(2, 0), (16, 3), (3, 0), (1, 0)]
      = some ({ hash_function_first_level_ := ⟨2, 0⟩,
                hash_table_ := [exampleBacketTable, {}] }, []) := by
  decide

end PolinomialHashTableSecondLevel

namespace FixedSet

/-- C15: for every list `L` of integers, repeated elements allowed, every earlier state and
every sequence of draws for which `Initialize(L)` completes, `Contains(x) = true` exactly when
`x` occurs in `L`; and in the second-level build an element that finds its own value in its
slot is not a collision, whatever the table size. -/
theorem contains_iff_occurs (s s1 : FixedSet) (L : List Int) (gen gen1 : Gen)
    (hcompletes : Initialize s L gen = some (s1, gen1)) :
    (∀ x : Int, s1.Contains x = true ↔ x ∈ L) ∧
    (∀ (t : PolinomialHashTableSecondLevel) (element : Int) (size : Nat), size ≠ 0 →
      t.hash_table_second_level_[t.hash_function_.GetElementHash element % size]?
        = some (some element) →
      PolinomialHashTableSecondLevel.CollisionAppeared t element size = some false) := by
  constructor
  · intro x
    exact Initialize_contains s s1 L gen gen1 hcompletes x
  · intro t element size hsize hslot
    rw [PolinomialHashTableSecondLevel.collisionAppeared_false_iff]
    exact ⟨hsize, Or.inr hslot⟩

theorem contains_iff_occurs_witness :
    Initialize {} exampleRepeated [(1, 0), (1, 0), (1, 0)] = some (exampleRepeatedBuilt, []) ∧
    ¬ exampleRepeated.Nodup ∧
    ((∀ x : Int, exampleRepeatedBuilt.Contains x = true ↔ x ∈ exampleRepeated) ∧
    (∀ (t : PolinomialHashTableSecondLevel) (element : Int) (size : Nat), size ≠ 0 →
      t.hash_table_second_level_[t.hash_function_.GetElementHash element % size]?
        = some (some element) →
      PolinomialHashTableSecondLevel.CollisionAppeared t element size = some false)) :=
  ⟨by decide, by decide,
    contains_iff_occurs {} exampleRepeatedBuilt exampleRepeated [(1, 0), (1, 0), (1, 0)] []
      (by decide)⟩

end FixedSet

end FixedSetModel

namespace FixedSetModel

namespace FixedSet

/-- C14: for the accepted first-level function `h1` and an input list of `n >= 1` elements, the
vector `hash_table_first_level` filled by `MakeFirstLevelHashTable` has `n` buckets, bucket `i`
holds exactly the input elements `e` with `h1(e) mod n = i`, in input order, every input
element lies in exactly one bucket, and the concatenation of the buckets is a permutation of
the input list. -/
theorem physical_partition (s s2 : FixedSet) (elements : List Int) (gen gen2 : Gen)
    (_hne : elements ≠ [])
    (haccepted : sampleFirstLevel elements
      { s with hash_table_ := resize s.hash_table_ elements.length {} } gen = some (s2, gen2)) :
    (fillFirstLevel s2 elements).length = elements.length ∧
    (∀ i, i < elements.length →
      (fillFirstLevel s2 elements)[i]?
        = some (elements.filter (fun e =>
            s2.hash_function_first_level_.GetElementHash e % elements.length = i))) ∧
    (∀ e ∈ elements, ∃! i : Nat, ∃ backet : List Int,
      (fillFirstLevel s2 elements)[i]? = some backet ∧ e ∈ backet) ∧
    (fillFirstLevel s2 elements).flatten.Perm elements := by
  obtain ⟨hht, _, _⟩ := sampleFirstLevel_spec _ _ _ _ _ haccepted
  simp only at hht
  have hlen : s2.hash_table_.length = elements.length := by
    rw [hht, PolinomialHashTableSecondLevel.length_resize]
  have hget := fun i hi => fillFirstLevel_getElem? s2 elements i hlen hi
  refine ⟨length_fillFirstLevel s2 elements, hget, ?_, ?_⟩
  · intro e he
    have hpos : 0 < elements.length := List.length_pos.2 (List.ne_nil_of_mem he)
    refine ⟨s2.hash_function_first_level_.GetElementHash e % elements.length,
      ⟨_, hget _ (Nat.mod_lt _ hpos), ?_⟩, ?_⟩
    · simp [backetOf, he]
    · rintro i ⟨backet, hb, hmem⟩
      have hi : i < elements.length := by
        have := (List.getElem?_eq_some_iff.1 hb).1
        rwa [length_fillFirstLevel] at this
      rw [hget i hi] at hb
      simp only [Option.some.injEq] at hb
      subst hb
      have := (List.mem_filter.1 hmem).2
      simp only [decide_eq_true_eq] at this
      exact this.symm
  · rw [fillFirstLevel_eq_map s2 elements hlen]
    exact flatten_buckets_perm
      (fun e => s2.hash_function_first_level_.GetElementHash e % elements.length)
      elements.length elements
      (fun e he => Nat.mod_lt _ (List.length_pos.2 (List.ne_nil_of_mem he)))

theorem physical_partition_witness :
    exampleElements ≠ [] ∧
    sampleFirstLevel exampleElements
      { ({} : FixedSet) with
        hash_table_ := resize ({} : FixedSet).hash_table_ exampleElements.length {} }
      exampleGen = some (exampleAccepted, exampleGen.tail.tail) ∧
    ((fillFirstLevel exampleAccepted exampleElements).length = exampleElements.length ∧
    (∀ i, i < exampleElements.length →
      (fillFirstLevel exampleAccepted exampleElements)[i]?
        = some (exampleElements.filter (fun e =>
            exampleAccepted.hash_function_first_level_.GetElementHash e
              % exampleElements.length = i))) ∧
    (∀ e ∈ exampleElements, ∃! i : Nat, ∃ backet : List Int,
      (fillFirstLevel exampleAccepted exampleElements)[i]? = some backet ∧ e ∈ backet) ∧
    (fillFirstLevel exampleAccepted exampleElements).flatten.Perm exampleElements) ∧
    fillFirstLevel exampleAccepted exampleElements
      = [[1, 2147483647], [-2147483648], [5], [], [-3]] :=
  ⟨by decide, by decide,
    physical_partition {} exampleAccepted exampleElements exampleGen exampleGen.tail.tail
      (by decide) (by decide),
    by decide⟩

/-- C18: for every two lists `S1` and `S2` and every sequence of draws (the same for both calls,
since each call creates its generator anew with the default seed), if `Initialize(S1)` on a
fresh structure and then `Initialize(S2)` on the result both complete, then `Initialize(S2)`
on a fresh structure completes after the same draws and the two structures give the same answer
to every `Contains(x)` and hold the same tables; for non-empty `S2` they are equal altogether,
and for empty `S2` every query is `false`. -/
theorem Initialize_overwrites (S1 S2 : List Int) (gen ga gb : Gen) (sa sb : FixedSet)
    (_h1 : Initialize {} S1 gen = some (sa, ga))
    (h2 : Initialize sa S2 gen = some (sb, gb)) :
    ∃ sc, Initialize {} S2 gen = some (sc, gb) ∧
      (∀ x : Int, sb.Contains x = sc.Contains x) ∧
      sb.hash_table_ = sc.hash_table_ ∧
      (S2 ≠ [] → sb = sc) ∧
      (S2 = [] → ∀ x : Int, sb.Contains x = false) := by
  by_cases hS : S2 = []
  · subst hS
    simp only [Initialize, MakeFirstLevelHashTable, List.isEmpty_nil, if_true,
      Option.some.injEq, Prod.mk.injEq] at h2
    obtain ⟨rfl, rfl⟩ := h2
    refine ⟨{}, rfl, ?_, ?_, fun h => absurd rfl h, fun _ x => ?_⟩
    · intro x
      simp [Contains, resize]
    · simp [resize]
    · simp [Contains, resize]
  · rw [Initialize_eq_fresh sa S2 gen hS] at h2
    exact ⟨sb, h2, fun _ => rfl, rfl, fun _ => rfl, fun h => absurd h hS⟩

theorem Initialize_overwrites_witness :
    Initialize {} exampleElements exampleGen = some (exampleBuilt, []) ∧
    Initialize exampleBuilt [7] exampleGen = some (exampleRebuilt, exampleGen.tail.tail) ∧
    ∃ sc, Initialize {} [7] exampleGen = some (sc, exampleGen.tail.tail) ∧
      (∀ x : Int, exampleRebuilt.Contains x = sc.Contains x) ∧
      exampleRebuilt.hash_table_ = sc.hash_table_ ∧
      (([7] : List Int) ≠ [] → exampleRebuilt = sc) ∧
      (([7] : List Int) = [] → ∀ x : Int, exampleRebuilt.Contains x = false) :=
  ⟨by decide, by decide,
    Initialize_overwrites exampleElements [7] exampleGen [] exampleGen.tail.tail exampleBuilt
      exampleRebuilt (by decide) (by decide)⟩

end FixedSet

end FixedSetModel

namespace FixedSetModel

namespace FixedSet

open PolinomialHashTableSecondLevel (construct second_level_hashtable_size
  MakeSecondLevelHashTable_spec length_resize)

/-! ## The build of `2^32 + 1` copies of one key -/

theorem length_repeatedKey : repeatedKey.length = 4294967297 := by
  unfold repeatedKey
  exact List.length_replicate _ _

theorem repeatedKey_ne_nil : repeatedKey ≠ [] := by
  intro h
  have := length_repeatedKey
  rw [h] at this
  simp at this

/-- On `repeatedKey` every two draws complete `Initialize`: the wrapped square `8589934593` of
the one bucket size passes the balance test against `4 * n = 17179869188`, and the table of the
one non-empty bucket gets the wrapped size `34359738372`. -/
theorem Initialize_repeatedKey (s : FixedSet) (d1 d2 : Nat × Nat) (gen : Gen) :
    ∃ s1, Initialize s repeatedKey (d1 :: d2 :: gen) = some (s1, gen) ∧
      sampleFirstLevel repeatedKey
        { s with hash_table_ := resize s.hash_table_ repeatedKey.length {} } (d1 :: d2 :: gen)
        = some (FixedSet.mk (coefficientsOf d1) (resize s.hash_table_ repeatedKey.length {}),
            d2 :: gen) ∧
      s1.hash_function_first_level_ = coefficientsOf d1 ∧
      backetOf (coefficientsOf d1) repeatedKey
        ((coefficientsOf d1).GetElementHash 7 % repeatedKey.length) = repeatedKey ∧
      (∀ i, i ≠ (coefficientsOf d1).GetElementHash 7 % repeatedKey.length →
        backetOf (coefficientsOf d1) repeatedKey i = []) ∧
      ((SplitIntoBackets s1 repeatedKey).map (fun size => size * size)).sum
        = repeatedKey.length * repeatedKey.length := by
  have hrep : repeatedKey = List.replicate (4294967296 + 1) 7 := by
    unfold repeatedKey
    rfl
  obtain ⟨hsample, s1, hinit⟩ := Initialize_replicate s 7 4294967296 d1 d2 gen
    (by decide) (by decide)
  rw [← hrep] at hsample hinit
  have hinit1 : Initialize s repeatedKey (d1 :: d2 :: gen) = some (s1, gen) := hinit
  have hsample1 : sampleFirstLevel repeatedKey
      { s with hash_table_ := resize s.hash_table_ repeatedKey.length {} } (d1 :: d2 :: gen)
      = some (FixedSet.mk (coefficientsOf d1) (resize s.hash_table_ repeatedKey.length {}),
          d2 :: gen) := hsample
  obtain ⟨s2, gen2, hash_table, hs, _, _, hs1⟩ :=
    Initialize_steps s s1 repeatedKey _ gen repeatedKey_ne_nil hinit1
  rw [hsample1] at hs
  simp only [Option.some.injEq, Prod.mk.injEq] at hs
  obtain ⟨rfl, _⟩ := hs
  have hf : s1.hash_function_first_level_ = coefficientsOf d1 := by rw [hs1]
  have hhash : ∀ e ∈ repeatedKey, s1.hash_function_first_level_.GetElementHash e
      = (coefficientsOf d1).GetElementHash 7 := by
    intro e he
    rw [hrep] at he
    rw [List.eq_of_mem_replicate he, hf]
  obtain ⟨hall, hnil, hsum⟩ := single_bucket s1 repeatedKey _ repeatedKey_ne_nil hhash
  rw [hf] at hall hnil
  exact ⟨s1, hinit1, hsample1, hf, hall, hnil, hsum⟩

/-- C4 (counterexample): on the list of `2^32 + 1` copies of the key `7`, whatever the draws,
`Initialize` completes after two of them, one physical bucket is the whole list, and the sum
over the buckets of the squared bucket size is `(2^32 + 1)^2`, which is not less than `4*n`:
the accepted sum `8589934593` is only its value modulo `2^64`. -/
theorem balance_fails_on_repeated_key :
    repeatedKey ≠ [] ∧ repeatedKey.length = 4294967297 ∧
    ∀ (d1 d2 : Nat × Nat) (gen : Gen),
      (∃ s1, Initialize {} repeatedKey (d1 :: d2 :: gen) = some (s1, gen)) ∧
      ∃ s2, sampleFirstLevel repeatedKey
          { ({} : FixedSet) with
            hash_table_ := resize ({} : FixedSet).hash_table_ repeatedKey.length {} }
          (d1 :: d2 :: gen) = some (s2, d2 :: gen) ∧
        (fillFirstLevel s2 repeatedKey)[(coefficientsOf d1).GetElementHash 7 % 4294967297]?
          = some repeatedKey ∧
        CountSumSquaredBacketSizes (SplitIntoBackets s2 repeatedKey) = 8589934593 ∧
        ((fillFirstLevel s2 repeatedKey).map (fun backet => backet.length * backet.length)).sum
          = 4294967297 * 4294967297 ∧
        ¬ ((fillFirstLevel s2 repeatedKey).map
            (fun backet => backet.length * backet.length)).sum < 4 * repeatedKey.length := by
  refine ⟨repeatedKey_ne_nil, length_repeatedKey, ?_⟩
  intro d1 d2 gen
  obtain ⟨s1, hinit, hsample, hf, hall, _, hsum⟩ := Initialize_repeatedKey {} d1 d2 gen
  refine ⟨⟨s1, hinit⟩, _, hsample, ?_⟩
  have hlen2 : (FixedSet.mk (coefficientsOf d1)
      (resize ({} : FixedSet).hash_table_ repeatedKey.length {})).hash_table_.length
      = repeatedKey.length := length_resize _ _ _
  have hsplit : SplitIntoBackets (FixedSet.mk (coefficientsOf d1)
      (resize ({} : FixedSet).hash_table_ repeatedKey.length {})) repeatedKey
      = SplitIntoBackets s1 repeatedKey := by
    unfold SplitIntoBackets
    rw [hf]
  have hmap := SplitIntoBackets_eq_map_length _ repeatedKey hlen2
  have hidx : (coefficientsOf d1).GetElementHash 7 % repeatedKey.length
      = (coefficientsOf d1).GetElementHash 7 % 4294967297 := by rw [length_repeatedKey]
  have hnn : repeatedKey.length * repeatedKey.length = 4294967297 * 4294967297 := by
    rw [length_repeatedKey]
  have hsq : ((fillFirstLevel (FixedSet.mk (coefficientsOf d1)
      (resize ({} : FixedSet).hash_table_ repeatedKey.length {})) repeatedKey).map
      (fun backet => backet.length * backet.length)).sum = 4294967297 * 4294967297 := by
    have h1 := hsum
    rw [← hsplit, hmap, List.map_map] at h1
    exact h1.trans hnn
  refine ⟨?_, ?_, hsq, ?_⟩
  · rw [← hidx, fillFirstLevel_getElem? _ repeatedKey _ hlen2
      (Nat.mod_lt _ (List.length_pos.2 repeatedKey_ne_nil))]
    exact congrArg some hall
  · rw [CountSumSquaredBacketSizes_eq, hsplit, hsum, hnn]
    decide
  · rw [hsq]
    have h4 : 4 * repeatedKey.length = 4 * 4294967297 := by rw [length_repeatedKey]
    rw [h4]
    decide

/-- C9 (counterexample): on the list of `2^32 + 1` copies of the key `7`, whatever the draws,
`Initialize` completes after two of them; the bucket of index `h1(7) mod n` has
`m = 2^32 + 1` elements, and its table has `34359738372` slots (the `size_t` value of
`4 * m * m`), not `4 * m * m`. -/
theorem shape_fails_on_repeated_key :
    repeatedKey.length = 4294967297 ∧
    ∀ (d1 d2 : Nat × Nat) (gen : Gen), ∃ s1 t,
      Initialize {} repeatedKey (d1 :: d2 :: gen) = some (s1, gen) ∧
      s1.hash_table_[(coefficientsOf d1).GetElementHash 7 % 4294967297]? = some t ∧
      (repeatedKey.filter (fun e =>
        s1.hash_function_first_level_.GetElementHash e % repeatedKey.length
          = (coefficientsOf d1).GetElementHash 7 % 4294967297)).length = 4294967297 ∧
      t.hash_table_second_level_.length = 34359738372 ∧
      t.hash_table_second_level_.length ≠ 4 * 4294967297 * 4294967297 := by
  refine ⟨length_repeatedKey, ?_⟩
  intro d1 d2 gen
  obtain ⟨s1, hinit, _, hf, hall, _, _⟩ := Initialize_repeatedKey {} d1 d2 gen
  obtain ⟨_, _, _, htab⟩ := Initialize_spec {} s1 repeatedKey _ gen repeatedKey_ne_nil hinit
  obtain ⟨t, g, g1, hc, ht⟩ := htab ((coefficientsOf d1).GetElementHash 7 % repeatedKey.length)
    (Nat.mod_lt _ (List.length_pos.2 repeatedKey_ne_nil))
  rw [hf, hall] at hc
  obtain ⟨_, _, hl, _⟩ := MakeSecondLevelHashTable_spec _ _ _ _ _ repeatedKey_ne_nil hc
  have hidx : (coefficientsOf d1).GetElementHash 7 % repeatedKey.length
      = (coefficientsOf d1).GetElementHash 7 % 4294967297 := by rw [length_repeatedKey]
  have hsize : t.hash_table_second_level_.length = 34359738372 := by
    rw [hl, length_repeatedKey]
    decide
  rw [hidx] at ht
  refine ⟨s1, t, hinit, ht, ?_, hsize, ?_⟩
  · have hb : backetOf (coefficientsOf d1) repeatedKey
        ((coefficientsOf d1).GetElementHash 7 % repeatedKey.length) = repeatedKey := hall
    unfold backetOf at hb
    rw [hf, ← hidx, hb]
    exact length_repeatedKey
  · rw [hsize]
    decide

end FixedSet

end FixedSetModel

/-! ## The operations performed by a query -/

namespace FixedSetModel

namespace PolinomialHashTableSecondLevel

/-- A second-level query is a defined run that returns the value of `Contains` after one call
of `GetElementHash` and at most two reads of a slot. -/
theorem ContainsRun_spec (t : PolinomialHashTableSecondLevel) (x : Int) :
    ∃ ops : List Operation, t.ContainsRun x = some (t.Contains x, ops)
      ∧ (ops.filter Operation.isHashCall).length ≤ 1
      ∧ (ops.filter Operation.isRead).length ≤ 2
      ∧ ops.length ≤ 3 := by
  unfold ContainsRun Contains
  by_cases hempty : t.hash_table_second_level_.isEmpty = true
  · exact ⟨[], by simp [hempty, pure, QueryRun.ret]⟩
  · have hlen : t.hash_table_second_level_.length ≠ 0 := by
      intro h
      exact hempty (by simpa using List.length_eq_zero.1 h)
    have hlt : t.hash_function_.GetElementHash x % t.hash_table_second_level_.length
        < t.hash_table_second_level_.length := Nat.mod_lt _ (Nat.pos_of_ne_zero hlen)
    obtain ⟨slot, hslot⟩ : ∃ slot, t.hash_table_second_level_[t.hash_function_.GetElementHash x
        % t.hash_table_second_level_.length]? = some slot :=
      ⟨_, List.getElem?_eq_getElem hlt⟩
    cases slot with
    | none =>
      refine ⟨[Operation.hashCall t.hash_function_ x,
        Operation.slotRead (t.hash_function_.GetElementHash x
          % t.hash_table_second_level_.length)], ?_, by simp [Operation.isHashCall],
        by simp [Operation.isRead], by simp⟩
      simp [hempty, hlen, hslot, bind, pure, QueryRun.andThen, QueryRun.ret, QueryRun.callHash,
        QueryRun.remainder, QueryRun.readSlot]
    | some stored =>
      refine ⟨[Operation.hashCall t.hash_function_ x,
        Operation.slotRead (t.hash_function_.GetElementHash x
          % t.hash_table_second_level_.length),
        Operation.slotRead (t.hash_function_.GetElementHash x
          % t.hash_table_second_level_.length)], ?_, by simp [Operation.isHashCall],
        by simp [Operation.isRead], by simp⟩
      simp [hempty, hlen, hslot, bind, pure, QueryRun.andThen, QueryRun.ret, QueryRun.callHash,
        QueryRun.remainder, QueryRun.readSlot, QueryRun.deref]

end PolinomialHashTableSecondLevel

namespace FixedSet

/-- A query is a defined run that returns the value of `Contains` after at most two calls of
`GetElementHash` and at most three reads of a vector entry. -/
theorem ContainsRun_operations (s : FixedSet) (x : Int) :
    ∃ ops : List Operation, s.ContainsRun x = some (s.Contains x, ops)
      ∧ (ops.filter Operation.isHashCall).length ≤ 2
      ∧ (ops.filter Operation.isRead).length ≤ 3
      ∧ ops.length ≤ 5 := by
  unfold ContainsRun Contains
  by_cases hempty : s.hash_table_.isEmpty = true
  · exact ⟨[], by simp [hempty, pure, QueryRun.ret]⟩
  · have hlen : s.hash_table_.length ≠ 0 := by
      intro h
      exact hempty (by simpa using List.length_eq_zero.1 h)
    have hlt : s.hash_function_first_level_.GetElementHash x % s.hash_table_.length
        < s.hash_table_.length := Nat.mod_lt _ (Nat.pos_of_ne_zero hlen)
    obtain ⟨t, ht⟩ : ∃ t, s.hash_table_[s.hash_function_first_level_.GetElementHash x
        % s.hash_table_.length]? = some t :=
      ⟨_, List.getElem?_eq_getElem hlt⟩
    obtain ⟨ops, hrun, hcalls, hreads, hall⟩ :=
      PolinomialHashTableSecondLevel.ContainsRun_spec t x
    refine ⟨Operation.hashCall s.hash_function_first_level_ x
      :: Operation.tableRead (s.hash_function_first_level_.GetElementHash x
          % s.hash_table_.length) :: ops, ?_, ?_, ?_, ?_⟩
    · simp [hempty, hlen, ht, hrun, bind, QueryRun.andThen, QueryRun.callHash,
        QueryRun.remainder, QueryRun.readTable]
    · simp only [List.filter, Operation.isHashCall, List.length_cons]
      omega
    · simp only [List.filter, Operation.isRead, List.length_cons]
      omega
    · simp only [List.length_cons]
      omega

/-- C11: on every structure and every key, whatever the number of elements and the bucket
sizes, the query is a defined run of the operations of `Contains` that returns the value of
`Contains`, and the operations it performs on the structure are at most two calls of
`GetElementHash` and at most three reads of a vector entry (one of `hash_table_`, at most two
of a slot): at most five operations in all. -/
theorem Contains_constant_work (s : FixedSet) (x : Int) :
    ∃ ops : List Operation, s.ContainsRun x = some (s.Contains x, ops)
      ∧ (ops.filter Operation.isHashCall).length ≤ 2
      ∧ (ops.filter Operation.isRead).length ≤ 3
      ∧ ops.length ≤ 5 :=
  ContainsRun_operations s x

end FixedSet

end FixedSetModel

/-! ## Builds as runs: agreement with the build, and where a run is undefined -/

namespace FixedSetModel

/-- A run with a result is a run that is done. -/
theorem eq_done_of_toOption {α : Type} (o : Outcome α) (r : α)
    (h : o.toOption = some r) : o = Outcome.done r := by
  cases o with
  | done result =>
    simp only [Outcome.toOption, Option.some.injEq] at h
    rw [h]
  | starved => simp [Outcome.toOption] at h
  | undefined => simp [Outcome.toOption] at h

namespace PolinomialHashTableSecondLevel

/-- The checked slot write never fails after `CollisionAppeared` has answered: the pass with
checks is the pass. -/
theorem placeElementsChecked_eq (size : Nat) (backet : List Int) :
    ∀ t : PolinomialHashTableSecondLevel,
      placeElementsChecked size backet t = placeElements size backet t := by
  induction backet with
  | nil => intro t; rfl
  | cons element rest ih =>
    intro t
    unfold placeElementsChecked placeElements
    cases hc : CollisionAppeared t element size with
    | none => rfl
    | some c =>
      cases c with
      | true => rfl
      | false =>
        have hsize : size ≠ 0 := by
          intro h0
          rw [h0] at hc
          simp [CollisionAppeared] at hc
        have hlt : t.hash_function_.GetElementHash element % size
            < t.hash_table_second_level_.length := by
          by_contra hge
          unfold CollisionAppeared at hc
          rw [if_neg hsize, List.getElem?_eq_none (Nat.le_of_not_lt hge)] at hc
          simp at hc
        simp only [checkedMod, if_neg hsize, checkedSet, if_pos hlt]
        exact ih _

/-- The result of a run of the retry loop is the result of the retry loop. -/
theorem retryLoopRun_toOption (backet : List Int) :
    ∀ (gen : Gen) (t : PolinomialHashTableSecondLevel),
      (retryLoopRun backet t gen).toOption = retryLoop backet t gen := by
  intro gen
  induction gen with
  | nil => intro t; rfl
  | cons draw gen ih =>
    intro t
    unfold retryLoopRun retryLoop SplitedIntoBacketsWithCollisions
    rw [placeElementsChecked_eq]
    cases hp : placeElements (second_level_hashtable_size backet.length) backet
        { t with hash_function_ := coefficientsOf draw } with
    | none => rfl
    | some r =>
      obtain ⟨answer, t1⟩ := r
      cases answer with
      | true => exact ih t1
      | false => rfl

/-- Over a table of as many slots as the non-zero modulus, the retry loop performs no
undefined operation. -/
theorem retryLoopRun_defined (backet : List Int)
    (hsize : second_level_hashtable_size backet.length ≠ 0) :
    ∀ (gen : Gen) (t : PolinomialHashTableSecondLevel),
      t.hash_table_second_level_.length = second_level_hashtable_size backet.length →
      retryLoopRun backet t gen ≠ Outcome.undefined := by
  intro gen
  induction gen with
  | nil =>
    intro t _ h
    simp [retryLoopRun] at h
  | cons draw gen ih =>
    intro t ht
    obtain ⟨answer, t1, hp, hl⟩ := placeElements_defined _ hsize backet
      { t with hash_function_ := coefficientsOf draw } ht
    unfold retryLoopRun
    rw [placeElementsChecked_eq, hp]
    cases answer with
    | true => exact ih t1 hl
    | false =>
      intro h
      simp at h

/-- The result of a run of the constructor is the result of the constructor. -/
theorem constructRun_toOption (gen : Gen) (backet : List Int) :
    (constructRun gen backet).toOption = construct gen backet := by
  unfold constructRun construct MakeSecondLevelHashTableRun MakeSecondLevelHashTable
  by_cases he : backet.isEmpty = true
  · simp only [he, if_true]
    rfl
  · simp only [he, if_false]
    exact retryLoopRun_toOption _ _ _

/-- The constructor performs no undefined operation on a bucket that is empty or has a
non-zero table size. -/
theorem constructRun_defined (gen : Gen) (backet : List Int)
    (h : backet ≠ [] → second_level_hashtable_size backet.length ≠ 0) :
    constructRun gen backet ≠ Outcome.undefined := by
  cases backet with
  | nil =>
    intro h1
    simp [constructRun, MakeSecondLevelHashTableRun] at h1
  | cons e rest =>
    unfold constructRun MakeSecondLevelHashTableRun
    simp only [List.isEmpty_cons, Bool.false_eq_true, if_false]
    apply retryLoopRun_defined _ (h (by simp))
    simp only [length_resize]

/-- On a non-empty bucket whose table size is `0` the first candidate already takes a
remainder by `0`. -/
theorem constructRun_undefined (backet : List Int) (draw : Nat × Nat) (gen : Gen)
    (hne : backet ≠ []) (hsize : second_level_hashtable_size backet.length = 0) :
    constructRun (draw :: gen) backet = Outcome.undefined := by
  cases backet with
  | nil => exact absurd rfl hne
  | cons e rest =>
    unfold constructRun MakeSecondLevelHashTableRun
    simp only [List.isEmpty_cons, Bool.false_eq_true, if_false]
    unfold retryLoopRun
    rw [hsize]
    unfold placeElementsChecked CollisionAppeared
    simp

end PolinomialHashTableSecondLevel

namespace FixedSet

open PolinomialHashTableSecondLevel (construct constructRun second_level_hashtable_size
  constructRun_toOption constructRun_defined constructRun_undefined length_resize)

/-- The counting loop with checks is the counting loop, whenever the modulus is the number of
counters and is non-zero if there is an element to count. -/
theorem countLoop_eq (s : FixedSet) (set_size : Nat) (elements : List Int) :
    ∀ backet_sizes : List Nat, backet_sizes.length = set_size →
      (elements ≠ [] → set_size ≠ 0) →
      countLoop s set_size elements backet_sizes
        = some (elements.foldl
            (fun backet_sizes element =>
              let i := s.hash_function_first_level_.GetElementHash element % set_size
              backet_sizes.set i (backet_sizes.getD i 0 + 1))
            backet_sizes) := by
  induction elements with
  | nil => intro _ _ _; rfl
  | cons element rest ih =>
    intro backet_sizes hlen hne
    have hsize : set_size ≠ 0 := hne (by simp)
    have hlt : s.hash_function_first_level_.GetElementHash element % set_size
        < backet_sizes.length := by
      rw [hlen]
      exact Nat.mod_lt _ (Nat.pos_of_ne_zero hsize)
    have hgetD : backet_sizes.getD
        (s.hash_function_first_level_.GetElementHash element % set_size) 0
        = backet_sizes[s.hash_function_first_level_.GetElementHash element % set_size] := by
      simp [List.getD_eq_getElem?_getD, List.getElem?_eq_getElem hlt]
    unfold countLoop
    simp only [checkedMod, if_neg hsize, List.getElem?_eq_getElem hlt, checkedSet, if_pos hlt,
      List.foldl_cons, hgetD]
    exact ih _ (by simp only [List.length_set]; exact hlen) (fun _ => hsize)

/-- Method `SplitIntoBackets` performs no undefined operation, on any list. -/
theorem SplitIntoBacketsChecked_eq (s : FixedSet) (elements : List Int) :
    SplitIntoBacketsChecked s elements = some (SplitIntoBackets s elements) := by
  unfold SplitIntoBacketsChecked SplitIntoBackets
  apply countLoop_eq s elements.length elements _ (List.length_replicate _ _)
  intro hne h0
  exact hne (List.length_eq_zero.1 h0)

/-- The filling loop with checks is the filling loop, whenever there are at least as many
buckets as the modulus and the modulus is non-zero if there is an element. -/
theorem pushLoop_eq (s : FixedSet) (elements : List Int) :
    ∀ hash_table_first_level : List (List Int),
      s.hash_table_.length ≤ hash_table_first_level.length →
      (elements ≠ [] → s.hash_table_.length ≠ 0) →
      pushLoop s elements hash_table_first_level
        = some (elements.foldl
            (fun hash_table_first_level element =>
              let i := s.hash_function_first_level_.GetElementHash element
                % s.hash_table_.length
              hash_table_first_level.set i (hash_table_first_level.getD i [] ++ [element]))
            hash_table_first_level) := by
  induction elements with
  | nil => intro _ _ _; rfl
  | cons element rest ih =>
    intro hash_table_first_level hlen hne
    have hsize : s.hash_table_.length ≠ 0 := hne (by simp)
    have hlt : s.hash_function_first_level_.GetElementHash element % s.hash_table_.length
        < hash_table_first_level.length :=
      Nat.lt_of_lt_of_le (Nat.mod_lt _ (Nat.pos_of_ne_zero hsize)) hlen
    have hgetD : hash_table_first_level.getD
        (s.hash_function_first_level_.GetElementHash element % s.hash_table_.length) []
        = hash_table_first_level[s.hash_function_first_level_.GetElementHash element
            % s.hash_table_.length] := by
      simp [List.getD_eq_getElem?_getD, List.getElem?_eq_getElem hlt]
    unfold pushLoop
    simp only [checkedMod, if_neg hsize, List.getElem?_eq_getElem hlt, checkedSet, if_pos hlt,
      List.foldl_cons, hgetD]
    exact ih _ (by simp only [List.length_set]; exact hlen) (fun _ => hsize)

/-- The filling of the buckets performs no undefined operation when `hash_table_` has as many
entries as the list has elements. -/
theorem fillFirstLevelChecked_eq (s : FixedSet) (elements : List Int)
    (hlen : s.hash_table_.length = elements.length) :
    fillFirstLevelChecked s elements = some (fillFirstLevel s elements) := by
  unfold fillFirstLevelChecked fillFirstLevel
  apply pushLoop_eq s elements _ (by rw [List.length_replicate, hlen])
  intro hne h0
  rw [hlen] at h0
  exact hne (List.length_eq_zero.1 h0)

/-- The result of a run of the first loop is the result of the first loop. -/
theorem sampleFirstLevelRun_toOption (elements : List Int) :
    ∀ (gen : Gen) (s : FixedSet),
      (sampleFirstLevelRun elements s gen).toOption = sampleFirstLevel elements s gen := by
  intro gen
  induction gen with
  | nil => intro s; rfl
  | cons draw gen ih =>
    intro s
    unfold sampleFirstLevelRun sampleFirstLevel
    simp only [SplitIntoBacketsChecked_eq]
    split
    · exact ih _
    · rfl

/-- The first loop performs no undefined operation, on any list. -/
theorem sampleFirstLevelRun_defined (elements : List Int) :
    ∀ (gen : Gen) (s : FixedSet),
      sampleFirstLevelRun elements s gen ≠ Outcome.undefined := by
  intro gen
  induction gen with
  | nil =>
    intro s h
    simp [sampleFirstLevelRun] at h
  | cons draw gen ih =>
    intro s
    unfold sampleFirstLevelRun
    simp only [SplitIntoBacketsChecked_eq]
    split
    · exact ih _
    · intro h
      simp at h

/-- The result of a run of the last loop is the result of the last loop, when the indices
`i_index, i_index + 1, ...` it assigns exist. -/
theorem buildTablesRun_toOption (backets : List (List Int)) :
    ∀ (i_index : Nat) (hash_table : List PolinomialHashTableSecondLevel) (gen : Gen),
      i_index + backets.length ≤ hash_table.length →
      (buildTablesRun backets i_index hash_table gen).toOption
        = buildTables backets i_index hash_table gen := by
  induction backets with
  | nil => intro _ _ _ _; rfl
  | cons b rest ih =>
    intro i_index hash_table gen hle
    have hc := constructRun_toOption gen b
    unfold buildTablesRun buildTables
    rw [← hc]
    cases hrun : constructRun gen b with
    | starved => rfl
    | undefined => rfl
    | done r =>
      obtain ⟨t, gen1⟩ := r
      have hlt : i_index < hash_table.length := by
        simp only [List.length_cons] at hle
        omega
      simp only [Outcome.toOption, checkedSet, if_pos hlt]
      exact ih (i_index + 1) (hash_table.set i_index t) gen1
        (by simp only [List.length_set, List.length_cons] at *; omega)

/-- The last loop performs no undefined operation when the indices it assigns exist and every
non-empty bucket has a non-zero table size. -/
theorem buildTablesRun_defined (backets : List (List Int)) :
    ∀ (i_index : Nat) (hash_table : List PolinomialHashTableSecondLevel) (gen : Gen),
      i_index + backets.length ≤ hash_table.length →
      (∀ b ∈ backets, b ≠ [] → second_level_hashtable_size b.length ≠ 0) →
      buildTablesRun backets i_index hash_table gen ≠ Outcome.undefined := by
  induction backets with
  | nil =>
    intro _ _ _ _ _ h
    simp [buildTablesRun] at h
  | cons b rest ih =>
    intro i_index hash_table gen hle hsizes
    have hc := constructRun_defined gen b (hsizes b (List.mem_cons_self _ _))
    unfold buildTablesRun
    cases hrun : constructRun gen b with
    | starved =>
      intro h
      simp at h
    | undefined => exact absurd hrun hc
    | done r =>
      obtain ⟨t, gen1⟩ := r
      have hlt : i_index < hash_table.length := by
        simp only [List.length_cons] at hle
        omega
      simp only [checkedSet, if_pos hlt]
      exact ih (i_index + 1) (hash_table.set i_index t) gen1
        (by simp only [List.length_set, List.length_cons] at *; omega)
        (fun b1 hb1 => hsizes b1 (List.mem_cons_of_mem _ hb1))

/-- The last loop is undefined when, after empty buckets only, it reaches a bucket on which
the constructor is undefined. -/
theorem buildTablesRun_undefined (j : Nat) :
    ∀ (backets : List (List Int)) (i_index : Nat)
      (hash_table : List PolinomialHashTableSecondLevel) (gen : Gen) (backet : List Int),
      (∀ k, k < j → backets[k]? = some []) → backets[j]? = some backet →
      i_index + j ≤ hash_table.length →
      constructRun gen backet = Outcome.undefined →
      buildTablesRun backets i_index hash_table gen = Outcome.undefined := by
  induction j with
  | zero =>
    intro backets i_index hash_table gen backet _ hj _ hc
    cases backets with
    | nil => simp at hj
    | cons b rest =>
      simp only [List.getElem?_cons_zero, Option.some.injEq] at hj
      subst hj
      unfold buildTablesRun
      rw [hc]
  | succ j ih =>
    intro backets i_index hash_table gen backet hempty hj hle hc
    cases backets with
    | nil => simp at hj
    | cons b rest =>
      have hb : b = [] := by
        have := hempty 0 (Nat.succ_pos j)
        simpa using this
      subst hb
      unfold buildTablesRun
      have hnil : constructRun gen [] = Outcome.done ({}, gen) := rfl
      have hlt : i_index < hash_table.length := by omega
      rw [hnil]
      simp only [checkedSet, if_pos hlt]
      apply ih rest _ _ gen backet
      · intro k hk
        have := hempty (k + 1) (by omega)
        simpa using this
      · simpa using hj
      · simp only [List.length_set]
        omega
      · exact hc

/-- The result of a run of `MakeFirstLevelHashTable` is the result of
`MakeFirstLevelHashTable`, when `hash_table_` has as many entries as the list has elements. -/
theorem MakeFirstLevelHashTableRun_toOption (s : FixedSet) (elements : List Int) (gen : Gen)
    (hlen : s.hash_table_.length = elements.length) :
    (MakeFirstLevelHashTableRun s elements gen).toOption
      = MakeFirstLevelHashTable s elements gen := by
  unfold MakeFirstLevelHashTableRun MakeFirstLevelHashTable
  by_cases he : elements.isEmpty = true
  · simp only [he, if_true]
    rfl
  · simp only [he, if_false]
    have hs := sampleFirstLevelRun_toOption elements gen s
    cases hrun : sampleFirstLevelRun elements s gen with
    | starved =>
      rw [hrun] at hs
      rw [← hs]
      rfl
    | undefined =>
      rw [hrun] at hs
      rw [← hs]
      rfl
    | done r =>
      obtain ⟨s1, gen1⟩ := r
      rw [hrun] at hs
      rw [← hs]
      have hht : s1.hash_table_.length = elements.length := by
        obtain ⟨h1, _, _⟩ := sampleFirstLevel_spec elements gen gen1 s s1 hs.symm
        rw [h1, hlen]
      have hb := buildTablesRun_toOption (fillFirstLevel s1 elements) 0 s1.hash_table_ gen1
        (by rw [length_fillFirstLevel, hht]; omega)
      simp only [Outcome.toOption, fillFirstLevelChecked_eq s1 elements hht]
      rw [← hb]
      cases hbr : buildTablesRun (fillFirstLevel s1 elements) 0 s1.hash_table_ gen1 with
      | starved => rfl
      | undefined => rfl
      | done r2 => rfl

/-- The result of a run of `Initialize` is the result of `Initialize`, on every list and every
sequence of draws. -/
theorem InitializeRun_toOption (s : FixedSet) (elements : List Int) (gen : Gen) :
    (InitializeRun s elements gen).toOption = Initialize s elements gen := by
  unfold InitializeRun Initialize
  exact MakeFirstLevelHashTableRun_toOption _ elements gen (length_resize _ _ _)

/-- On a list of fewer than `2^32` elements a run of `Initialize` performs no undefined
operation. -/
theorem InitializeRun_defined (s : FixedSet) (elements : List Int) (gen : Gen)
    (hn : elements.length < u32) :
    InitializeRun s elements gen ≠ Outcome.undefined := by
  unfold InitializeRun MakeFirstLevelHashTableRun
  by_cases he : elements.isEmpty = true
  · simp only [he, if_true]
    intro h
    simp at h
  · simp only [he, if_false]
    have hs := sampleFirstLevelRun_toOption elements gen
      { s with hash_table_ := resize s.hash_table_ elements.length {} }
    have hd := sampleFirstLevelRun_defined elements gen
      { s with hash_table_ := resize s.hash_table_ elements.length {} }
    cases hrun : sampleFirstLevelRun elements
        { s with hash_table_ := resize s.hash_table_ elements.length {} } gen with
    | starved =>
      intro h
      simp at h
    | undefined => exact absurd hrun hd
    | done r =>
      obtain ⟨s1, gen1⟩ := r
      rw [hrun] at hs
      obtain ⟨h1, _, hbal⟩ := sampleFirstLevel_spec elements gen gen1 _ s1 hs.symm
      have hht : s1.hash_table_.length = elements.length := by
        rw [h1]
        exact length_resize _ _ _
      have hsizes : ∀ b ∈ fillFirstLevel s1 elements, b ≠ [] →
          second_level_hashtable_size b.length ≠ 0 := by
        intro b hb hbne
        have hmem : b.length ∈ SplitIntoBackets s1 elements := by
          rw [SplitIntoBackets_eq_map_length s1 elements hht]
          exact List.mem_map_of_mem _ hb
        have h2 := square_le_sum_squares (SplitIntoBackets s1 elements) _ hmem
        have h3 := balance_of_accepted s1 elements hn hbal
        rw [second_level_hashtable_size_of_balanced elements.length _ hn (by omega),
          Nat.mul_assoc]
        have hpos : 0 < b.length := List.length_pos.2 hbne
        have : 0 < b.length * b.length := Nat.mul_pos hpos hpos
        omega
      have hb := buildTablesRun_defined (fillFirstLevel s1 elements) 0 s1.hash_table_ gen1
        (by rw [length_fillFirstLevel, hht]; omega) hsizes
      simp only [fillFirstLevelChecked_eq s1 elements hht]
      cases hbr : buildTablesRun (fillFirstLevel s1 elements) 0 s1.hash_table_ gen1 with
      | starved =>
        intro h
        simp at h
      | undefined => exact absurd hbr hb
      | done r2 =>
        intro h
        simp at h

/-- On copies of one key the first candidate is accepted whenever the wrapped square of the
number of copies is below the wrapped `4 * n`. -/
theorem sampleFirstLevel_replicate (s : FixedSet) (x : Int) (k : Nat) (d1 : Nat × Nat)
    (gen : Gen) (hacc : (k + 1) * (k + 1) % u64 < kConstForBacketSize * (k + 1) % u64) :
    sampleFirstLevel (List.replicate (k + 1) x) s (d1 :: gen)
      = some (FixedSet.mk (coefficientsOf d1) s.hash_table_, gen) ∧
    CountSumSquaredBacketSizes
      (SplitIntoBackets (FixedSet.mk (coefficientsOf d1) s.hash_table_)
        (List.replicate (k + 1) x)) = (k + 1) * (k + 1) % u64 := by
  have hlen : (List.replicate (k + 1) x).length = k + 1 := List.length_replicate _ _
  have hne : List.replicate (k + 1) x ≠ [] := by
    intro h
    rw [h] at hlen
    simp at hlen
  have hhash : ∀ e ∈ List.replicate (k + 1) x,
      (coefficientsOf d1).GetElementHash e = (coefficientsOf d1).GetElementHash x := by
    intro e he
    rw [List.eq_of_mem_replicate he]
  obtain ⟨_, _, hsum⟩ := single_bucket (FixedSet.mk (coefficientsOf d1) s.hash_table_)
    (List.replicate (k + 1) x) _ hne hhash
  have hcount : CountSumSquaredBacketSizes
      (SplitIntoBackets (FixedSet.mk (coefficientsOf d1) s.hash_table_)
        (List.replicate (k + 1) x)) = (k + 1) * (k + 1) % u64 := by
    rw [CountSumSquaredBacketSizes_eq, hsum, hlen]
  refine ⟨?_, hcount⟩
  unfold sampleFirstLevel
  simp only
  rw [hcount, hlen, if_neg (Nat.not_le.2 hacc)]

/-- On copies of one key whose number passes the balance test by wrap-around and makes the
table size wrap to `0`, every run of `Initialize` that gets two draws is undefined: the first
candidate of the second level takes a remainder by `0`. -/
theorem InitializeRun_replicate (s : FixedSet) (x : Int) (k : Nat) (d1 d2 : Nat × Nat)
    (gen : Gen) (hacc : (k + 1) * (k + 1) % u64 < kConstForBacketSize * (k + 1) % u64)
    (hsize : second_level_hashtable_size (k + 1) = 0) :
    InitializeRun s (List.replicate (k + 1) x) (d1 :: d2 :: gen) = Outcome.undefined := by
  have hlen : (List.replicate (k + 1) x).length = k + 1 := List.length_replicate _ _
  have hne : List.replicate (k + 1) x ≠ [] := by
    intro h
    rw [h] at hlen
    simp at hlen
  have hpos : 0 < (List.replicate (k + 1) x).length := by rw [hlen]; omega
  have hhash : ∀ e ∈ List.replicate (k + 1) x,
      (coefficientsOf d1).GetElementHash e = (coefficientsOf d1).GetElementHash x := by
    intro e he
    rw [List.eq_of_mem_replicate he]
  have hlen2 : (resize s.hash_table_ (List.replicate (k + 1) x).length
      ({} : PolinomialHashTableSecondLevel)).length = (List.replicate (k + 1) x).length :=
    length_resize _ _ _
  obtain ⟨hall, hnil, _⟩ := single_bucket
    (FixedSet.mk (coefficientsOf d1) (resize s.hash_table_ (List.replicate (k + 1) x).length {}))
    (List.replicate (k + 1) x) _ hne hhash
  obtain ⟨hsample, _⟩ := sampleFirstLevel_replicate
    { s with hash_table_ := resize s.hash_table_ (List.replicate (k + 1) x).length {} }
    x k d1 (d2 :: gen) hacc
  have hrun := eq_done_of_toOption _ _
    ((sampleFirstLevelRun_toOption (List.replicate (k + 1) x) (d1 :: d2 :: gen)
      { s with hash_table_ := resize s.hash_table_ (List.replicate (k + 1) x).length {} }).trans
      hsample)
  have hget := fun i hi => fillFirstLevel_getElem?
    (FixedSet.mk (coefficientsOf d1) (resize s.hash_table_ (List.replicate (k + 1) x).length {}))
    (List.replicate (k + 1) x) i hlen2 hi
  have hbuild := buildTablesRun_undefined
    ((coefficientsOf d1).GetElementHash x % (List.replicate (k + 1) x).length)
    (fillFirstLevel (FixedSet.mk (coefficientsOf d1)
      (resize s.hash_table_ (List.replicate (k + 1) x).length {})) (List.replicate (k + 1) x))
    0 (resize s.hash_table_ (List.replicate (k + 1) x).length {}) (d2 :: gen)
    (List.replicate (k + 1) x)
    (by
      intro i hi
      have hilt : i < (List.replicate (k + 1) x).length :=
        Nat.lt_trans hi (Nat.mod_lt _ hpos)
      rw [hget i hilt]
      exact congrArg some (hnil i (Nat.ne_of_lt hi)))
    (by rw [hget _ (Nat.mod_lt _ hpos)]; exact congrArg some hall)
    (by rw [hlen2]; exact Nat.le_of_lt (by simpa using Nat.mod_lt _ hpos))
    (constructRun_undefined _ d2 gen hne (by rw [hlen]; exact hsize))
  unfold InitializeRun MakeFirstLevelHashTableRun
  have he : (List.replicate (k + 1) x).isEmpty = false := rfl
  simp only [he, Bool.false_eq_true, if_false]
  rw [hrun]
  simp only [fillFirstLevelChecked_eq
    (FixedSet.mk (coefficientsOf d1) (resize s.hash_table_ (List.replicate (k + 1) x).length {}))
    (List.replicate (k + 1) x) hlen2]
  rw [hbuild]

end FixedSet

end FixedSetModel

/-! ## Undefined operations -/

namespace FixedSetModel

namespace FixedSet

open PolinomialHashTableSecondLevel (CollisionAppeared second_level_hashtable_size
  ContainsRun_spec length_resize)

theorem length_repeatedKeyWrap : repeatedKeyWrap.length = 4294967296 := by
  unfold repeatedKeyWrap
  exact List.length_replicate _ _

/-- C13 (amended): on every list of fewer than `2^32` elements, for every earlier state and
every sequence of draws, the run of `Initialize` in which each remainder and each vector index
is checked (in `SplitIntoBackets`, in the loop that fills the buckets, in the assignment of the
tables, in `CollisionAppeared` and in the slot write of `SplitedIntoBacketsWithCollisions`)
performs no undefined operation, and what it returns is what `Initialize` returns; and on every
structure and every key, the run of `Contains` in which each remainder, each read and the
dereference is checked performs no undefined operation and returns the value of `Contains`, at
the first level and in every second-level table. -/
theorem no_undefined_operation (s : FixedSet) (elements : List Int) (gen : Gen)
    (hn : elements.length < u32) :
    InitializeRun s elements gen ≠ Outcome.undefined ∧
    (InitializeRun s elements gen).toOption = Initialize s elements gen ∧
    (∀ (s1 : FixedSet) (x : Int),
      ∃ ops : List Operation, s1.ContainsRun x = some (s1.Contains x, ops)) ∧
    (∀ (t : PolinomialHashTableSecondLevel) (x : Int),
      ∃ ops : List Operation, t.ContainsRun x = some (t.Contains x, ops)) := by
  refine ⟨InitializeRun_defined s elements gen hn, InitializeRun_toOption s elements gen, ?_, ?_⟩
  · intro s1 x
    obtain ⟨ops, h, _⟩ := ContainsRun_operations s1 x
    exact ⟨ops, h⟩
  · intro t x
    obtain ⟨ops, h, _⟩ := ContainsRun_spec t x
    exact ⟨ops, h⟩

/-- The checked run of the worked build performs no undefined operation and is done with
`exampleBuilt`. -/
theorem no_undefined_operation_witness :
    exampleElements.length < u32 ∧
    (InitializeRun {} exampleElements exampleGen ≠ Outcome.undefined ∧
      (InitializeRun {} exampleElements exampleGen).toOption
        = Initialize {} exampleElements exampleGen ∧
      (∀ (s1 : FixedSet) (x : Int),
        ∃ ops : List Operation, s1.ContainsRun x = some (s1.Contains x, ops)) ∧
      (∀ (t : PolinomialHashTableSecondLevel) (x : Int),
        ∃ ops : List Operation, t.ContainsRun x = some (t.Contains x, ops))) ∧
    InitializeRun {} exampleElements exampleGen = Outcome.done (exampleBuilt, []) :=
  ⟨by decide, no_undefined_operation {} exampleElements exampleGen (by decide), rfl⟩

/-- C13 (counterexample): on the list of `2^32` copies of the key `7`, for every earlier state
and whatever the draws are, the run of `Initialize` executes a remainder by zero.  The first
candidate of the first level is accepted, because the one bucket has `2^32` elements and the
`uint64_t` square of that size is `0 < 4 * n`; the bucket is the whole list; its table size
`4 * m * m` is `0` in `size_t`; and `CollisionAppeared` computes `GetElementHash(7) % 0` for
the first candidate of the second level. -/
theorem remainder_by_zero_on_repeated_key :
    repeatedKeyWrap.length = 4294967296 ∧ (∀ e ∈ repeatedKeyWrap, e = 7) ∧
    second_level_hashtable_size repeatedKeyWrap.length = 0 ∧
    (∀ t : PolinomialHashTableSecondLevel,
      CollisionAppeared t 7 (second_level_hashtable_size repeatedKeyWrap.length) = none) ∧
    ∀ (s : FixedSet) (d1 d2 : Nat × Nat) (gen : Gen),
      sampleFirstLevelRun repeatedKeyWrap
          (FixedSet.mk s.hash_function_first_level_
            (resize s.hash_table_ repeatedKeyWrap.length {}))
          (d1 :: d2 :: gen)
        = Outcome.done (FixedSet.mk (coefficientsOf d1)
            (resize s.hash_table_ repeatedKeyWrap.length {}), d2 :: gen) ∧
      CountSumSquaredBacketSizes (SplitIntoBackets (FixedSet.mk (coefficientsOf d1)
          (resize s.hash_table_ repeatedKeyWrap.length {})) repeatedKeyWrap) = 0 ∧
      (fillFirstLevel (FixedSet.mk (coefficientsOf d1)
          (resize s.hash_table_ repeatedKeyWrap.length {})) repeatedKeyWrap)[
          (coefficientsOf d1).GetElementHash 7 % 4294967296]? = some repeatedKeyWrap ∧
      InitializeRun s repeatedKeyWrap (d1 :: d2 :: gen) = Outcome.undefined ∧
      Initialize s repeatedKeyWrap (d1 :: d2 :: gen) = none := by
  have hrep : repeatedKeyWrap = List.replicate (4294967295 + 1) 7 := by
    unfold repeatedKeyWrap
    rfl
  have hmem : ∀ e ∈ repeatedKeyWrap, e = 7 := by
    intro e he
    rw [hrep] at he
    exact List.eq_of_mem_replicate he
  have hne : repeatedKeyWrap ≠ [] := by
    intro h
    have := length_repeatedKeyWrap
    rw [h] at this
    simp at this
  have hsize : second_level_hashtable_size repeatedKeyWrap.length = 0 := by
    rw [length_repeatedKeyWrap]
    decide
  refine ⟨length_repeatedKeyWrap, hmem, hsize, ?_, ?_⟩
  · intro t
    rw [hsize]
    simp [CollisionAppeared]
  · intro s d1 d2 gen
    have hlen2 : (FixedSet.mk (coefficientsOf d1)
        (resize s.hash_table_ repeatedKeyWrap.length {})).hash_table_.length
        = repeatedKeyWrap.length := length_resize _ _ _
    obtain ⟨hsample, hcount⟩ := sampleFirstLevel_replicate
      (FixedSet.mk s.hash_function_first_level_
        (resize s.hash_table_ repeatedKeyWrap.length {})) 7 4294967295 d1 (d2 :: gen)
      (by decide)
    rw [← hrep] at hsample hcount
    have hrun := eq_done_of_toOption _ _
      ((sampleFirstLevelRun_toOption repeatedKeyWrap (d1 :: d2 :: gen)
        (FixedSet.mk s.hash_function_first_level_
          (resize s.hash_table_ repeatedKeyWrap.length {}))).trans hsample)
    have hzero : (4294967295 + 1) * (4294967295 + 1) % u64 = 0 := by decide
    have hhash : ∀ e ∈ repeatedKeyWrap,
        LinearHashFunction.GetElementHash (FixedSet.mk (coefficientsOf d1)
          (resize s.hash_table_ repeatedKeyWrap.length {})).hash_function_first_level_ e
          = (coefficientsOf d1).GetElementHash 7 := by
      intro e he
      rw [hmem e he]
    obtain ⟨hall, _, _⟩ := single_bucket (FixedSet.mk (coefficientsOf d1)
      (resize s.hash_table_ repeatedKeyWrap.length {})) repeatedKeyWrap _ hne hhash
    have hidx : (coefficientsOf d1).GetElementHash 7 % repeatedKeyWrap.length
        = (coefficientsOf d1).GetElementHash 7 % 4294967296 := by
      rw [length_repeatedKeyWrap]
    have hget := fillFirstLevel_getElem? (FixedSet.mk (coefficientsOf d1)
      (resize s.hash_table_ repeatedKeyWrap.length {})) repeatedKeyWrap
      ((coefficientsOf d1).GetElementHash 7 % repeatedKeyWrap.length) hlen2
      (Nat.mod_lt _ (List.length_pos.2 hne))
    rw [hall, hidx] at hget
    have hundef := InitializeRun_replicate s 7 4294967295 d1 d2 gen (by decide) (by decide)
    rw [← hrep] at hundef
    refine ⟨hrun, hcount.trans hzero, hget, hundef, ?_⟩
    rw [← InitializeRun_toOption, hundef]
    rfl

end FixedSet

end FixedSetModel
